import Mathlib

/-!
# Verification of the Barus storage core against its specification

Shallow embedding of the Barus key-value store's persistent core
(WAL manager, memtable manager, disk-table checkpoint logic, B-tree
index) together with proofs and refutations of the specification
claims.  Each definition is translated from the corresponding Rust
source item, named after it where Lean allows.

Machine integers are modelled as `Nat` with explicit `% 2^w` where the
Rust code can overflow; byte buffers are `List Nat` with entries below
256; fallible operations return `Option` or explicit result types.
-/

namespace Barus

/-! ## Little-endian / big-endian fixed-width integer bytes

`bincode` with `with_fixed_int_encoding().with_little_endian()` writes
`u64` as 8 little-endian bytes and the derived enum discriminant as a
little-endian `u32`; the WAL frame header is a big-endian `u32`
(`(payload_size as u32).to_be_bytes()`). -/

/-- `w` little-endian bytes of `n` (least significant byte first). -/
def toBytesLE : Nat → Nat → List Nat
  | 0, _ => []
  | w + 1, n => n % 256 :: toBytesLE w (n / 256)

/-- Read a little-endian number from `w` bytes of the list. -/
def fromBytesLE : Nat → List Nat → Nat
  | 0, _ => 0
  | _ + 1, [] => 0
  | w + 1, b :: bs => b + 256 * fromBytesLE w bs

theorem toBytesLE_length (w n : Nat) : (toBytesLE w n).length = w := by
  induction w generalizing n with
  | zero => rfl
  | succ w ih => simp [toBytesLE, ih]

theorem fromBytesLE_toBytesLE (w n : Nat) (h : n < 256 ^ w) :
    fromBytesLE w (toBytesLE w n) = n := by
  induction w generalizing n with
  | zero =>
    have hn : n = 0 := by simpa [Nat.pow_zero, Nat.lt_one_iff] using h
    simp [hn, fromBytesLE, toBytesLE]
  | succ w ih =>
    have hdiv : n / 256 < 256 ^ w := by
      have : n < 256 ^ w * 256 := by
        simpa [Nat.pow_succ] using h
      exact Nat.div_lt_of_lt_mul (by simpa [Nat.mul_comm] using this)
    simp [toBytesLE, fromBytesLE, ih _ hdiv, Nat.mod_add_div n 256]

/-- `fromBytesLE` only looks at the first `w` bytes. -/
theorem fromBytesLE_append (w : Nat) (bs rest : List Nat)
    (h : bs.length = w) : fromBytesLE w (bs ++ rest) = fromBytesLE w bs := by
  induction w generalizing bs with
  | zero => simp [fromBytesLE]
  | succ w ih =>
    cases bs with
    | nil => simp at h
    | cons b bs =>
      simp only [List.cons_append, fromBytesLE, List.append_eq]
      rw [ih bs (by simpa using h)]

theorem toBytesLE_lt (w n : Nat) : ∀ b ∈ toBytesLE w n, b < 256 := by
  induction w generalizing n with
  | zero => simp [toBytesLE]
  | succ w ih =>
    intro b hb
    simp only [toBytesLE, List.mem_cons] at hb
    rcases hb with h | h
    · exact h ▸ Nat.mod_lt _ (by norm_num)
    · exact ih _ _ h

/-! ## WAL record data model — `src/wal/record.rs`

```rust
pub struct WALPayload { pub table: String, pub key: String, pub value: Option<String> }
pub struct WALRecord { pub record_id: u64, pub record_type: RecordType, pub data: WALPayload }
pub enum RecordType { Put, Delete }
```

Strings are modelled by their UTF-8 byte lists (`List Nat`, entries
< 256); string comparison and equality in Rust are byte-wise, so
nothing is lost. -/

/-- `RecordType` — the WAL record kind (`src/wal/record.rs`). -/
inductive RecordType where
  | Put
  | Delete
  deriving DecidableEq, Repr

/-- Rust/bincode derived enum discriminant (declaration order). -/
def RecordType.discriminant : RecordType → Nat
  | .Put => 0
  | .Delete => 1

/-- `WALPayload` (`src/wal/record.rs`); strings as UTF-8 byte lists. -/
structure WALPayload where
  table : List Nat
  key : List Nat
  value : Option (List Nat)
  deriving DecidableEq, Repr

/-- `WALRecord` (`src/wal/record.rs`). -/
structure WALRecord where
  record_id : Nat
  record_type : RecordType
  data : WALPayload
  deriving DecidableEq, Repr

/-- `WALPayload::size` (`src/wal/record.rs`):
`8 + table_size + 8 + key_size + 8 + value_size` where a `None` value
contributes 0. -/
def WALPayload.size (p : WALPayload) : Nat :=
  8 + p.table.length + 8 + p.key.length + 8 +
    (match p.value with
     | some v => v.length
     | none => 0)

/-- `WALRecord::size` (`src/wal/record.rs`): `8 + 1 + payload_size`. -/
def WALRecord.size (r : WALRecord) : Nat :=
  8 + 1 + r.data.size

/-! ## WAL record codec — `src/wal/encode.rs`

`WALRecordBincodeCodec` uses `bincode 2` with
`standard().with_fixed_int_encoding().with_little_endian().with_no_limit()`:
* `u64` → 8 bytes LE;
* derived enum discriminant → `u32` → 4 bytes LE;
* `String` → `u64` length + that many bytes;
* `Option<T>` → 1 tag byte (0 = `None`, 1 = `Some`) + encoded `T`. -/

/-- Encoding of an optional string under the fixed-int bincode config. -/
def encodeOption : Option (List Nat) → List Nat
  | none => [0]
  | some v => 1 :: (toBytesLE 8 v.length ++ v)

/-- `WALRecordBincodeCodec::encode` — the byte sequence
`bincode::encode_into_slice` produces for a `WALRecord`. -/
def encodeWALRecord (r : WALRecord) : List Nat :=
  toBytesLE 8 r.record_id ++
  toBytesLE 4 r.record_type.discriminant ++
  toBytesLE 8 r.data.table.length ++ r.data.table ++
  toBytesLE 8 r.data.key.length ++ r.data.key ++
  encodeOption r.data.value

/-- Total number of bytes `encode` writes for a record. -/
theorem encodeWALRecord_length (r : WALRecord) :
    (encodeWALRecord r).length =
      29 + r.data.table.length + r.data.key.length +
        (match r.data.value with
         | some v => 8 + v.length
         | none => 0) := by
  cases hv : r.data.value <;>
    simp [encodeWALRecord, encodeOption, hv, toBytesLE_length] <;> omega

/-- Decode a `u64` (8 LE bytes) from the front of a byte list;
fails when fewer than 8 bytes remain (`bincode` `UnexpectedEnd`). -/
def decodeU64 (bs : List Nat) : Option (Nat × List Nat) :=
  if bs.length < 8 then none
  else some (fromBytesLE 8 (bs.take 8), bs.drop 8)

/-- Decode a length-prefixed byte string. -/
def decodeBytes (bs : List Nat) : Option (List Nat × List Nat) := do
  let (len, bs) ← decodeU64 bs
  if bs.length < len then none
  else some (bs.take len, bs.drop len)

/-- Decode an `Option<String>`: tag byte 0 or 1, anything else fails. -/
def decodeOption (bs : List Nat) : Option (Option (List Nat) × List Nat) :=
  match bs with
  | 0 :: rest => some (none, rest)
  | 1 :: rest => do
      let (v, rest) ← decodeBytes rest
      some (some v, rest)
  | _ => none

/-- Decode the enum discriminant (`u32`, 4 LE bytes) into a
`RecordType`; an out-of-range discriminant fails. -/
def decodeRecordType (bs : List Nat) : Option (RecordType × List Nat) :=
  if bs.length < 4 then none
  else
    match fromBytesLE 4 (bs.take 4) with
    | 0 => some (.Put, bs.drop 4)
    | 1 => some (.Delete, bs.drop 4)
    | _ => none

/-- `WALRecordBincodeCodec::decode` — `bincode::decode_from_slice`
for a `WALRecord`; trailing bytes are ignored (bincode returns the
consumed length). -/
def decodeWALRecord (bs : List Nat) : Option WALRecord := do
  let (rid, bs) ← decodeU64 bs
  let (rt, bs) ← decodeRecordType bs
  let (table, bs) ← decodeBytes bs
  let (key, bs) ← decodeBytes bs
  let (value, _) ← decodeOption bs
  some { record_id := rid, record_type := rt,
         data := { table := table, key := key, value := value } }

/-- A record whose numeric fields fit their Rust types: `record_id`
is a `u64` and each string is a Rust `String` (length below `2^64`,
which any real string trivially satisfies). -/
def WALRecord.wf (r : WALRecord) : Prop :=
  r.record_id < 2 ^ 64 ∧ r.data.table.length < 2 ^ 64 ∧
    r.data.key.length < 2 ^ 64 ∧
    (match r.data.value with
     | some v => v.length < 2 ^ 64
     | none => True)

theorem decodeU64_encode (n : Nat) (hn : n < 2 ^ 64) (rest : List Nat) :
    decodeU64 (toBytesLE 8 n ++ rest) = some (n, rest) := by
  have hlen : (toBytesLE 8 n).length = 8 := toBytesLE_length 8 n
  have h256 : n < 256 ^ 8 := by norm_num at hn ⊢; omega
  unfold decodeU64
  rw [if_neg (by rw [List.length_append, hlen]; omega)]
  have ht := List.take_left (toBytesLE 8 n) rest
  rw [hlen] at ht
  have hd := List.drop_left (toBytesLE 8 n) rest
  rw [hlen] at hd
  rw [ht, hd, fromBytesLE_toBytesLE 8 n h256]

theorem decodeBytes_encode (v rest : List Nat) (hv : v.length < 2 ^ 64) :
    decodeBytes (toBytesLE 8 v.length ++ (v ++ rest)) = some (v, rest) := by
  simp only [decodeBytes, decodeU64_encode v.length hv (v ++ rest),
    Option.bind_eq_bind, Option.some_bind]
  rw [if_neg (by rw [List.length_append]; omega), List.take_left, List.drop_left]

theorem decodeRecordType_encode (t : RecordType) (rest : List Nat) :
    decodeRecordType (toBytesLE 4 t.discriminant ++ rest) = some (t, rest) := by
  have hlen : (toBytesLE 4 t.discriminant).length = 4 := toBytesLE_length _ _
  have ht := List.take_left (toBytesLE 4 t.discriminant) rest
  rw [hlen] at ht
  have hd := List.drop_left (toBytesLE 4 t.discriminant) rest
  rw [hlen] at hd
  unfold decodeRecordType
  rw [if_neg (by rw [List.length_append, hlen]; omega), ht, hd,
    fromBytesLE_toBytesLE 4 t.discriminant (by cases t <;> norm_num [RecordType.discriminant])]
  cases t <;> rfl

theorem decodeOption_encode (v : Option (List Nat)) (rest : List Nat)
    (hv : match v with
          | some v => v.length < 2 ^ 64
          | none => True) :
    decodeOption (encodeOption v ++ rest) = some (v, rest) := by
  cases v with
  | none => rfl
  | some v =>
    simp only [encodeOption, List.cons_append, List.append_assoc, decodeOption,
      decodeBytes_encode v rest hv, Option.bind_eq_bind, Option.some_bind]

/-- Decoding the bytes written by `encode` (with any trailing bytes in
the buffer) recovers the original record. -/
theorem decodeWALRecord_encode (r : WALRecord) (rest : List Nat) (hwf : r.wf) :
    decodeWALRecord (encodeWALRecord r ++ rest) = some r := by
  obtain ⟨h1, h2, h3, h4⟩ := hwf
  simp only [encodeWALRecord, List.append_assoc, decodeWALRecord,
    decodeU64_encode r.record_id h1, decodeRecordType_encode,
    decodeBytes_encode r.data.table _ h2, decodeBytes_encode r.data.key _ h3,
    decodeOption_encode r.data.value rest h4, Option.bind_eq_bind, Option.some_bind]

/-- `bincode::encode_into_slice(record, buf, CONFIG)`: writes the
encoding at the start of `buf` and returns the number of bytes
written; fails when the buffer is too small. -/
def encodeIntoSlice (r : WALRecord) (buf : List Nat) : Option (List Nat × Nat) :=
  let e := encodeWALRecord r
  if buf.length < e.length then none
  else some (e ++ buf.drop e.length, e.length)

/-- C10: the WAL record codec round-trips — for every record and every
buffer large enough, encoding into the buffer succeeds and decoding the
written bytes yields the original record; and encoding is a pure
function of the record, hence deterministic. -/
theorem C10_wal_codec_roundtrip (r : WALRecord) (buf : List Nat) (hwf : r.wf)
    (hbuf : (encodeWALRecord r).length ≤ buf.length) :
    (∃ written, encodeIntoSlice r buf = some (written, (encodeWALRecord r).length) ∧
        decodeWALRecord (written.take (encodeWALRecord r).length) = some r) ∧
      decodeWALRecord (encodeWALRecord r) = some r ∧
      (∀ r' : WALRecord, r' = r → encodeWALRecord r' = encodeWALRecord r) := by
  refine ⟨⟨encodeWALRecord r ++ buf.drop (encodeWALRecord r).length, ?_, ?_⟩, ?_, ?_⟩
  · rw [encodeIntoSlice, if_neg (by omega)]
  · rw [List.take_left]
    simpa using decodeWALRecord_encode r [] hwf
  · simpa using decodeWALRecord_encode r [] hwf
  · intro r' h; rw [h]

/-- Sample record used for the C10 witness. -/
def c10SampleRecord : WALRecord :=
  ⟨5, .Put, ⟨[116], [107], some [118]⟩⟩

/-- Witness for C10 at a concrete record and buffer. -/
theorem C10_wal_codec_roundtrip_witness :
    c10SampleRecord.wf ∧
      (∃ written,
          encodeIntoSlice c10SampleRecord (List.replicate 64 0) = some (written, 40) ∧
            decodeWALRecord (written.take 40) = some c10SampleRecord) := by
  have hwf : c10SampleRecord.wf := by
    refine ⟨?_, ?_, ?_, ?_⟩ <;> simp [c10SampleRecord]
  refine ⟨hwf, ?_⟩
  have h := C10_wal_codec_roundtrip c10SampleRecord (List.replicate 64 0) hwf (by decide)
  have hlen : (encodeWALRecord c10SampleRecord).length = 40 := by decide
  rw [hlen] at h
  exact h.1

/-! ## WAL manager — `src/wal/mod.rs`

Constants from `src/config.rs`:
`WAL_SEGMENT_SIZE = 1024*1024*32`, `WAL_RECORD_HEADER_SIZE = 4`. -/

def WAL_SEGMENT_SIZE : Nat := 1024 * 1024 * 32

def WAL_RECORD_HEADER_SIZE : Nat := 4

/-- `WALGlobalState` (`src/wal/state.rs`); the ids are `u64` values
and `last_segment_file_offset` is a `usize`, all modelled as `Nat`
with wrap-around made explicit where the code can overflow. -/
structure WALGlobalState where
  last_record_id : Nat
  last_checkpoint_record_id : Nat
  last_segment_id : Nat
  last_checkpoint_segment_id : Nat
  last_segment_file_offset : Nat
  deriving DecidableEq, Repr

/-- `WALGlobalState::default()` — all counters zero. -/
def walInitialState : WALGlobalState :=
  ⟨0, 0, 0, 0, 0⟩

/-- Data of a successful `WALManager::append`: the assigned record id,
the segment-file offset of the 4-byte frame header, the encoded
payload size and the segment the frame went to. -/
structure AppendOk where
  record_id : Nat
  frame_start : Nat
  payload_size : Nat
  segment_id : Nat
  deriving DecidableEq, Repr

/-- `WALManager::append` (`src/wal/mod.rs` lines 265–313).

Step 2: if `last_segment_file_offset + record.size() > WAL_SEGMENT_SIZE`
then `new_segment_file()` increments `last_segment_id` (a `u64`
`+= 1`, hence the `% 2^64`) and resets the offset to 0; this mutation
persists even if the subsequent encode fails.

Step 3: the record id is assigned as `last_record_id + 1` and the
payload is encoded into `mmap[offset + 4 ..]`, a buffer of
`WAL_SEGMENT_SIZE - (offset + 4)` bytes; `bincode::encode_into_slice`
fails (`UnexpectedEnd`) when the encoding does not fit, in which case
`append` returns the error before updating any counter.  (The slice
expression itself cannot panic: every record has `size() ≥ 25`, so
whenever `offset + 4 > WAL_SEGMENT_SIZE` the rotation of step 2 has
already reset the offset.)

Step 4 writes the big-endian `u32` length header at `offset` and
advances `last_record_id` and `last_segment_file_offset`. -/
def WALManager.append (s : WALGlobalState) (r : WALRecord) :
    WALGlobalState × Option AppendOk :=
  let s1 :=
    if s.last_segment_file_offset + r.size > WAL_SEGMENT_SIZE then
      { s with
        last_segment_id := (s.last_segment_id + 1) % 2 ^ 64,
        last_segment_file_offset := 0 }
    else s
  let payload_start := s1.last_segment_file_offset + WAL_RECORD_HEADER_SIZE
  let new_record_id := (s1.last_record_id + 1) % 2 ^ 64
  let payload_size := (encodeWALRecord { r with record_id := new_record_id }).length
  if payload_start + payload_size ≤ WAL_SEGMENT_SIZE then
    ({ s1 with
       last_record_id := new_record_id,
       last_segment_file_offset :=
         s1.last_segment_file_offset + (payload_size + WAL_RECORD_HEADER_SIZE) },
     some ⟨new_record_id, s1.last_segment_file_offset, payload_size, s1.last_segment_id⟩)
  else (s1, none)

/-- C1 amended, part 1 and 2: `last_segment_file_offset` never exceeds
`WAL_SEGMENT_SIZE` (it is preserved by `append`, successful or not),
and every frame actually written by a successful `append` satisfies
`frame_start + 4 + payload_size ≤ WAL_SEGMENT_SIZE`.  The further
assertion of the claim — that every record *admitted by the rotation
check* fits — is refuted by `C1_counterexample` below. -/
theorem C1_segment_bound (s : WALGlobalState) (r : WALRecord)
    (h : s.last_segment_file_offset ≤ WAL_SEGMENT_SIZE) :
    (WALManager.append s r).1.last_segment_file_offset ≤ WAL_SEGMENT_SIZE ∧
      ∀ ok : AppendOk, (WALManager.append s r).2 = some ok →
        ok.frame_start + WAL_RECORD_HEADER_SIZE + ok.payload_size ≤ WAL_SEGMENT_SIZE := by
  simp only [WALManager.append]
  split_ifs with h1 h2 h3 <;>
    simp only [WAL_RECORD_HEADER_SIZE] at * <;>
    constructor <;>
    first
      | omega
      | (intro ok hok
         simp only [Option.some.injEq] at hok
         subst hok
         simp only []
         omega)
      | (intro ok hok; simp at hok)

/-- Record used to fill the WAL segment near its end for the C1
counterexample (a Put of a 33554358-byte value; its on-disk frame is
4 + 37 + 33554358 = 33554399 bytes). -/
def c1BigRecord : WALRecord :=
  ⟨0, .Put, ⟨[], [], some (List.replicate 33554358 65)⟩⟩

/-- A minimal Put record: `size() = 33`, encoded frame 41 bytes. -/
def c1SmallRecord : WALRecord :=
  ⟨0, .Put, ⟨[], [], some []⟩⟩

/-- The WAL state reached by appending `c1BigRecord` to a fresh WAL
(see `c1_append_big`): offset is `33554399 = WAL_SEGMENT_SIZE - 33`. -/
def c1State1 : WALGlobalState :=
  ⟨1, 0, 0, 0, 33554399⟩

/-- Shape of `append` when the rotation check admits the record and
the encoded frame fits: counters advance and the frame is written at
the old offset. -/
theorem append_eq_of_fits (s : WALGlobalState) (r : WALRecord)
    (h1 : ¬ (s.last_segment_file_offset + r.size > WAL_SEGMENT_SIZE))
    (h2 : s.last_segment_file_offset + WAL_RECORD_HEADER_SIZE +
        (encodeWALRecord { r with record_id := (s.last_record_id + 1) % 2 ^ 64 }).length ≤
          WAL_SEGMENT_SIZE) :
    WALManager.append s r =
      ({ s with
         last_record_id := (s.last_record_id + 1) % 2 ^ 64,
         last_segment_file_offset :=
           s.last_segment_file_offset +
             ((encodeWALRecord { r with record_id := (s.last_record_id + 1) % 2 ^ 64 }).length +
               WAL_RECORD_HEADER_SIZE) },
       some ⟨(s.last_record_id + 1) % 2 ^ 64, s.last_segment_file_offset,
         (encodeWALRecord { r with record_id := (s.last_record_id + 1) % 2 ^ 64 }).length,
         s.last_segment_id⟩) := by
  simp only [WALManager.append, if_neg h1, if_pos h2]

/-- Shape of `append` when the rotation check admits the record but
the encoded frame does not fit: the encode fails and nothing advances. -/
theorem append_eq_of_admitted_nofit (s : WALGlobalState) (r : WALRecord)
    (h1 : ¬ (s.last_segment_file_offset + r.size > WAL_SEGMENT_SIZE))
    (h2 : ¬ (s.last_segment_file_offset + WAL_RECORD_HEADER_SIZE +
        (encodeWALRecord { r with record_id := (s.last_record_id + 1) % 2 ^ 64 }).length ≤
          WAL_SEGMENT_SIZE)) :
    WALManager.append s r = (s, none) := by
  simp only [WALManager.append, if_neg h1, if_neg h2]

/-- Size of a record with a `Some` value, stated generically so that
concrete instances need no list evaluation. -/
theorem walRecord_size_some (rid : Nat) (rt : RecordType) (t k v : List Nat) :
    (⟨rid, rt, ⟨t, k, some v⟩⟩ : WALRecord).size =
      8 + 1 + (8 + t.length + 8 + k.length + 8 + v.length) := rfl

/-- Encoded length of a record with a `Some` value. -/
theorem encodeWALRecord_length_some (r : WALRecord) (v : List Nat)
    (hv : r.data.value = some v) :
    (encodeWALRecord r).length =
      29 + r.data.table.length + r.data.key.length + (8 + v.length) := by
  rw [encodeWALRecord_length, hv]

theorem c1BigRecord_size : c1BigRecord.size = 33554391 := by
  show (⟨0, .Put, ⟨[], [], some (List.replicate 33554358 65)⟩⟩ : WALRecord).size = 33554391
  rw [walRecord_size_some, List.length_replicate, List.length_nil]

theorem c1BigRecord_encoded_length (n : Nat) :
    (encodeWALRecord { c1BigRecord with record_id := n }).length = 33554395 := by
  rw [encodeWALRecord_length_some _ (List.replicate 33554358 65) rfl]
  have ht : ({ c1BigRecord with record_id := n } : WALRecord).data.table = [] := rfl
  have hk : ({ c1BigRecord with record_id := n } : WALRecord).data.key = [] := rfl
  rw [ht, hk, List.length_replicate, List.length_nil]

theorem c1SmallRecord_size : c1SmallRecord.size = 33 := by
  simp [c1SmallRecord, WALRecord.size, WALPayload.size]

theorem c1SmallRecord_encoded_length (n : Nat) :
    (encodeWALRecord { c1SmallRecord with record_id := n }).length = 37 := by
  rw [encodeWALRecord_length_some _ [] rfl]
  simp [c1SmallRecord]

/-- Appending a fresh Put record with an (abstract) value of length
33554358 to a fresh WAL: generic in the value so that no proof step
ever traverses the 33-MB list. -/
theorem c1_append_fresh_put (v : List Nat) (hlen : v.length = 33554358) :
    WALManager.append walInitialState ⟨0, .Put, ⟨[], [], some v⟩⟩ =
      ({ last_record_id := 1, last_checkpoint_record_id := 0, last_segment_id := 0,
         last_checkpoint_segment_id := 0, last_segment_file_offset := 33554399 },
       some ⟨1, 0, 33554395, 0⟩) := by
  have hsz : (⟨0, .Put, ⟨[], [], some v⟩⟩ : WALRecord).size = 33554391 := by
    rw [walRecord_size_some, hlen]
    norm_num
  have henc : ∀ n : Nat,
      (encodeWALRecord { (⟨0, .Put, ⟨[], [], some v⟩⟩ : WALRecord) with
        record_id := n }).length = 33554395 := by
    intro n
    rw [encodeWALRecord_length_some _ v rfl]
    simp [hlen]
  have h1 : ¬ (walInitialState.last_segment_file_offset +
      (⟨0, .Put, ⟨[], [], some v⟩⟩ : WALRecord).size > WAL_SEGMENT_SIZE) := by
    rw [hsz]
    norm_num [walInitialState, WAL_SEGMENT_SIZE]
  have h2 : walInitialState.last_segment_file_offset + WAL_RECORD_HEADER_SIZE +
      (encodeWALRecord { (⟨0, .Put, ⟨[], [], some v⟩⟩ : WALRecord) with
        record_id := (walInitialState.last_record_id + 1) % 2 ^ 64 }).length ≤
        WAL_SEGMENT_SIZE := by
    rw [henc]
    norm_num [walInitialState, WAL_SEGMENT_SIZE, WAL_RECORD_HEADER_SIZE]
  rw [append_eq_of_fits _ _ h1 h2, henc]
  norm_num [walInitialState, WAL_RECORD_HEADER_SIZE]

theorem c1_append_big :
    WALManager.append walInitialState c1BigRecord = (c1State1, some ⟨1, 0, 33554395, 0⟩) :=
  c1_append_fresh_put (List.replicate 33554358 65) (List.length_replicate 33554358 65)

/-- C1 counterexample: after a genuine successful append filling the
segment up to offset `WAL_SEGMENT_SIZE - 33`, the rotation check of
step 1 admits `c1SmallRecord` (`offset + record.size() ≤
WAL_SEGMENT_SIZE`, so no rotation), yet its frame needs
`offset + 4 + 37 > WAL_SEGMENT_SIZE` bytes and does not fit: `append`
fails instead of writing.  `record.size()` (33) undercounts the
on-disk frame (41 = 4-byte header + 37-byte bincode payload). -/
theorem C1_counterexample :
    WALManager.append walInitialState c1BigRecord = (c1State1, some ⟨1, 0, 33554395, 0⟩) ∧
      ¬ (c1State1.last_segment_file_offset + c1SmallRecord.size > WAL_SEGMENT_SIZE) ∧
      c1State1.last_segment_file_offset + WAL_RECORD_HEADER_SIZE +
          (encodeWALRecord
            { c1SmallRecord with
              record_id := (c1State1.last_record_id + 1) % 2 ^ 64 }).length >
        WAL_SEGMENT_SIZE ∧
      (WALManager.append c1State1 c1SmallRecord).2 = none := by
  refine ⟨c1_append_big, ?_, ?_, ?_⟩
  · rw [c1SmallRecord_size]
    norm_num [c1State1, WAL_SEGMENT_SIZE]
  · rw [c1SmallRecord_encoded_length]
    norm_num [c1State1, WAL_SEGMENT_SIZE, WAL_RECORD_HEADER_SIZE]
  · rw [append_eq_of_admitted_nofit]
    · rw [c1SmallRecord_size]
      norm_num [c1State1, WAL_SEGMENT_SIZE]
    · rw [c1SmallRecord_encoded_length]
      norm_num [c1State1, WAL_SEGMENT_SIZE, WAL_RECORD_HEADER_SIZE]

/-- Witness for `C1_segment_bound` at the fresh WAL state. -/
theorem C1_segment_bound_witness :
    walInitialState.last_segment_file_offset ≤ WAL_SEGMENT_SIZE ∧
      ((WALManager.append walInitialState c1SmallRecord).1.last_segment_file_offset ≤
          WAL_SEGMENT_SIZE ∧
        ∀ ok : AppendOk,
          (WALManager.append walInitialState c1SmallRecord).2 = some ok →
            ok.frame_start + WAL_RECORD_HEADER_SIZE + ok.payload_size ≤ WAL_SEGMENT_SIZE) :=
  ⟨by decide, C1_segment_bound walInitialState c1SmallRecord (by decide)⟩

/-- Sequential composition of `append` calls under the writer lock:
returns the final state and, per call, `some` outcome or `none`. -/
def WALManager.appendMany :
    WALGlobalState → List WALRecord → WALGlobalState × List (Option AppendOk)
  | s, [] => (s, [])
  | s, r :: rs =>
    let p := WALManager.append s r
    let q := WALManager.appendMany p.1 rs
    (q.1, p.2 :: q.2)

theorem append_id_of_some (s : WALGlobalState) (r : WALRecord) (ok : AppendOk)
    (h : (WALManager.append s r).2 = some ok) :
    ok.record_id = (s.last_record_id + 1) % 2 ^ 64 ∧
      (WALManager.append s r).1.last_record_id = (s.last_record_id + 1) % 2 ^ 64 := by
  simp only [WALManager.append] at h ⊢
  split_ifs at h ⊢ <;>
    first
      | exact Option.noConfusion h
      | (obtain rfl := Option.some.inj h; exact ⟨rfl, rfl⟩)

theorem append_id_of_none (s : WALGlobalState) (r : WALRecord)
    (h : (WALManager.append s r).2 = none) :
    (WALManager.append s r).1.last_record_id = s.last_record_id := by
  simp only [WALManager.append] at h ⊢
  split_ifs at h ⊢ <;>
    first
      | exact Option.noConfusion h
      | rfl

/-- C3: record ids assigned by successful `append` calls are strictly
increasing and gap-free.  For any run of `append` calls (failed calls
do not consume ids), the list of assigned ids is exactly
`List.range' (last_record_id + 1) k = [last_record_id + 1, …,
last_record_id + k]` where `k` counts the successful calls, and
`last_record_id` advances by exactly `k`.  The hypothesis rules out
`u64` overflow of the id counter during the run (in a debug build the
`+ 1` would panic at `u64::MAX` instead of wrapping). -/
theorem C3_wal_record_ids_monotonic (s : WALGlobalState) (rs : List WALRecord)
    (h : s.last_record_id + rs.length < 2 ^ 64) :
    (WALManager.appendMany s rs).2.filterMap (fun o => o.map AppendOk.record_id) =
        List.range' (s.last_record_id + 1)
          ((WALManager.appendMany s rs).2.countP (fun o => o.isSome)) ∧
      (WALManager.appendMany s rs).1.last_record_id =
        s.last_record_id + (WALManager.appendMany s rs).2.countP (fun o => o.isSome) := by
  induction rs generalizing s with
  | nil => simp [WALManager.appendMany]
  | cons r rs ih =>
    simp only [WALManager.appendMany]
    cases hp : (WALManager.append s r).2 with
    | some ok =>
      obtain ⟨hid, hlast⟩ := append_id_of_some s r ok hp
      have hmod : (s.last_record_id + 1) % 2 ^ 64 = s.last_record_id + 1 := by
        apply Nat.mod_eq_of_lt
        simp only [List.length_cons] at h
        omega
      rw [hmod] at hid hlast
      have h' : (WALManager.append s r).1.last_record_id + rs.length < 2 ^ 64 := by
        rw [hlast]
        simp only [List.length_cons] at h
        omega
      obtain ⟨ih1, ih2⟩ := ih (WALManager.append s r).1 h'
      rw [hlast] at ih1 ih2
      have hcons : List.filterMap (fun o => Option.map AppendOk.record_id o)
          (some ok :: (WALManager.appendMany (WALManager.append s r).1 rs).2) =
          ok.record_id :: List.filterMap (fun o => Option.map AppendOk.record_id o)
            (WALManager.appendMany (WALManager.append s r).1 rs).2 := by
        simp
      have hcount : List.countP (fun o => o.isSome)
          (some ok :: (WALManager.appendMany (WALManager.append s r).1 rs).2) =
          List.countP (fun o => o.isSome)
            (WALManager.appendMany (WALManager.append s r).1 rs).2 + 1 := by
        simp
      constructor
      · rw [hcons, hcount, List.range'_succ, hid, ih1]
      · rw [hcount, ih2]
        omega
    | none =>
      have hlast := append_id_of_none s r hp
      have h' : (WALManager.append s r).1.last_record_id + rs.length < 2 ^ 64 := by
        rw [hlast]
        simp only [List.length_cons] at h
        omega
      obtain ⟨ih1, ih2⟩ := ih (WALManager.append s r).1 h'
      rw [hlast] at ih1 ih2
      have hcons : List.filterMap (fun o => Option.map AppendOk.record_id o)
          (none :: (WALManager.appendMany (WALManager.append s r).1 rs).2) =
          List.filterMap (fun o => Option.map AppendOk.record_id o)
            (WALManager.appendMany (WALManager.append s r).1 rs).2 := by
        simp
      have hcount : List.countP (fun o => o.isSome)
          (none :: (WALManager.appendMany (WALManager.append s r).1 rs).2) =
          List.countP (fun o => o.isSome)
            (WALManager.appendMany (WALManager.append s r).1 rs).2 := by
        simp
      rw [hcons, hcount]
      exact ⟨ih1, ih2⟩

/-- Witness for C3: two successful appends from a fresh WAL assign ids
1 and 2. -/
theorem C3_wal_record_ids_monotonic_witness :
    walInitialState.last_record_id + [c1SmallRecord, c1SmallRecord].length < 2 ^ 64 ∧
      ((WALManager.appendMany walInitialState [c1SmallRecord, c1SmallRecord]).2.filterMap
          (fun o => o.map AppendOk.record_id) =
        List.range' (walInitialState.last_record_id + 1)
          ((WALManager.appendMany walInitialState [c1SmallRecord, c1SmallRecord]).2.countP
            (fun o => o.isSome))) :=
  ⟨by decide,
   (C3_wal_record_ids_monotonic walInitialState [c1SmallRecord, c1SmallRecord]
      (by decide)).1⟩

/-! ## Segment id increments — C6

`WALSegmentID::increment` (`src/wal/segment_id.rs` lines 34–37, and
the identical copy in `src/wal/segment.rs` used by `wal/mod.rs`):

```rust
pub fn increment(&mut self) { self.0 += 1; }
```

a plain `u64` `+= 1`: in a release build (overflow checks off) it
wraps modulo `2^64`; in a debug build it panics at `u64::MAX`.  It
does not saturate.

`TableSegmentID::increment` (`src/disktable/segment/segment_id.rs`
lines 29–32):

```rust
pub fn increment(&mut self) { self.0 = self.0.saturating_add(1); }
```

which does saturate. -/

def WALSegmentID.increment (n : Nat) : Nat :=
  (n + 1) % 2 ^ 64

def TableSegmentID.increment (n : Nat) : Nat :=
  min (n + 1) (2 ^ 64 - 1)

/-- C6 counterexample: the WAL segment id increment applied at
`u64::MAX` yields 0 (release semantics; a debug build panics), not
`u64::MAX` — it does not saturate. -/
theorem C6_counterexample :
    WALSegmentID.increment (2 ^ 64 - 1) = 0 ∧ (0 : Nat) ≠ 2 ^ 64 - 1 := by
  constructor
  · unfold WALSegmentID.increment
    norm_num
  · norm_num

/-- C6 amended: the disk-table segment id increment saturates
(`u64::MAX` stays put, smaller ids gain exactly 1), while the WAL
segment id increment adds 1 modulo `2^64` — below `u64::MAX` it adds
exactly 1, at `u64::MAX` it wraps to 0 (or panics in a debug build)
rather than saturating. -/
theorem C6_increment_semantics (n : Nat) (h : n < 2 ^ 64 - 1) :
    TableSegmentID.increment n = n + 1 ∧
      WALSegmentID.increment n = n + 1 ∧
      TableSegmentID.increment (2 ^ 64 - 1) = 2 ^ 64 - 1 ∧
      WALSegmentID.increment (2 ^ 64 - 1) = 0 := by
  refine ⟨?_, ?_, ?_, ?_⟩
  · unfold TableSegmentID.increment
    omega
  · unfold WALSegmentID.increment
    apply Nat.mod_eq_of_lt
    omega
  · unfold TableSegmentID.increment
    omega
  · unfold WALSegmentID.increment
    norm_num

/-- Witness for C6 at `n = 5`. -/
theorem C6_increment_semantics_witness :
    5 < 2 ^ 64 - 1 ∧
      (TableSegmentID.increment 5 = 6 ∧ WALSegmentID.increment 5 = 6 ∧
        TableSegmentID.increment (2 ^ 64 - 1) = 2 ^ 64 - 1 ∧
        WALSegmentID.increment (2 ^ 64 - 1) = 0) :=
  ⟨by norm_num, C6_increment_semantics 5 (by norm_num)⟩

/-! ## Memtable `put` retry loop — C7

`MemtableManager::put` (`src/memtable/mod.rs` lines 197–260) step 1
is a retry loop over shared atomics; `trigger_flush` (lines 158–195)
starts with `block_write.compare_exchange(false, true, ..)` and
returns `MemtableFlushAlreadyInProgress` when that fails.  In `put`
the call is `self.trigger_flush().await?` — the `?` propagates that
error out of `put`. -/

/-- Result of one iteration of the `put` retry loop. -/
inductive PutIterResult where
  | retry
  | errFlushInProgress
  | proceed (newSize : Nat)
  deriving DecidableEq, Repr

/-- One iteration of the loop at the top of `MemtableManager::put`.
The loop reads shared atomics that other tasks mutate concurrently,
so each read is a parameter: `blockAtCheck` is `block_write` as
loaded in step 1, `cur` is `memtable_current_size` as loaded next,
`blockAtFlush` is `block_write` at the moment `trigger_flush`
executes its compare-exchange (another task may have started a flush
in between), and `curAtCas` is `memtable_current_size` at the size
compare-exchange.  `bytes = key.len() + value.len()`. -/
def putLoopIter (hardLimit bytes : Nat) (blockAtCheck : Bool) (cur : Nat)
    (blockAtFlush : Bool) (curAtCas : Nat) : PutIterResult :=
  if blockAtCheck then .retry
  else if cur + bytes > hardLimit then
    if blockAtFlush then .errFlushInProgress
    else .retry
  else if curAtCas = cur then .proceed (cur + bytes)
  else .retry

/-- C7 counterexample: with the hard limit exceeded and another flush
concurrently holding `block_write`, `trigger_flush`'s compare-exchange
fails and `put` propagates `MemtableFlushAlreadyInProgress` — `put`
does return an error merely because the hard limit was reached while
another flush was in progress. -/
theorem C7_counterexample :
    putLoopIter 10 20 false 0 true 0 = .errFlushInProgress := by
  decide

/-- C7 amended: the size counter is updated by a compare-and-swap
from `cur` to `cur + |key| + |value|` (the `proceed` case); while
`block_write` is set the loop spins; when the prospective size
exceeds the hard limit, `put` calls `trigger_flush` and retries only
if the flush compare-exchange succeeds — if another flush holds
`block_write` at that moment, the error `MemtableFlushAlreadyInProgress`
is propagated out of `put` by the `?` operator. -/
theorem C7_put_loop (hard bytes cur curAtCas : Nat) (bf : Bool)
    (hover : cur + bytes > hard) :
    putLoopIter hard bytes true cur bf curAtCas = .retry ∧
      putLoopIter hard bytes false cur bf curAtCas =
        (if bf then .errFlushInProgress else .retry) ∧
      (∀ cur', ¬ (cur' + bytes > hard) → curAtCas = cur' →
        putLoopIter hard bytes false cur' bf curAtCas = .proceed (cur' + bytes)) := by
  refine ⟨rfl, ?_, ?_⟩
  · unfold putLoopIter
    rw [if_neg (by simp), if_pos hover]
  · intro cur' hle hcas
    unfold putLoopIter
    rw [if_neg (by simp), if_neg hle, if_pos hcas]

/-- Witness for C7 at concrete loop inputs. -/
theorem C7_put_loop_witness :
    (0 : Nat) + 20 > 10 ∧
      (putLoopIter 10 20 true 0 false 0 = .retry ∧
        putLoopIter 10 20 false 0 false 0 =
          (if false then .errFlushInProgress else .retry) ∧
        (∀ cur', ¬ (cur' + 20 > 10) → 0 = cur' →
          putLoopIter 10 20 false cur' false 0 = .proceed (cur' + 20))) :=
  ⟨by norm_num, C7_put_loop 10 20 0 0 false (by norm_num)⟩

/-! ## WAL segment scan — `WALManager::scan_records` (C4)

`src/wal/mod.rs` lines 362–406: read the whole segment file, then

```rust
while offset + 4 <= bytes.len() {
    let payload_size = u32::from_be_bytes(bytes[offset..offset+4]);
    if payload_size == 0 { break; }
    offset += 4;
    if offset + payload_size > bytes.len() { log; break; }
    let Ok(record) = codec.decode(&bytes[offset..offset+payload_size]) else {
        log; offset += payload_size; continue;   // skip, do NOT stop
    };
    records.push(record); offset += payload_size;
}
(records, offset)
```

Modelled by structural recursion on the remaining bytes; the returned
offset is the number of consumed bytes. -/

/-- `w` big-endian bytes of `n` (`u32::to_be_bytes` for `w = 4`). -/
def toBytesBE (w n : Nat) : List Nat :=
  (toBytesLE w n).reverse

/-- `u32::from_be_bytes` on the first `w` bytes. -/
def fromBytesBE (w : Nat) (bs : List Nat) : Nat :=
  fromBytesLE w (bs.take w).reverse

/-- Loop of `scan_records` over the bytes not yet consumed. -/
def scanRecordsGo (remaining : List Nat) : List WALRecord × Nat :=
  if _h4 : remaining.length < 4 then ([], 0)
  else
    let ps := fromBytesBE 4 remaining
    if ps = 0 then ([], 0)
    else
      let rest := remaining.drop 4
      if _htr : rest.length < ps then ([], 4)
      else
        match decodeWALRecord (rest.take ps) with
        | none =>
          let r := scanRecordsGo (rest.drop ps)
          (r.1, 4 + ps + r.2)
        | some record =>
          let r := scanRecordsGo (rest.drop ps)
          (record :: r.1, 4 + ps + r.2)
  termination_by remaining.length
  decreasing_by
    all_goals
      simp only [List.length_drop]
      omega

/-- `WALManager::scan_records` on the bytes of a segment file. -/
def scan_records (bytes : List Nat) : List WALRecord × Nat :=
  scanRecordsGo bytes

/-- On-disk frame: 4-byte big-endian length prefix, then the payload. -/
def walFrame (payload : List Nat) : List Nat :=
  toBytesBE 4 payload.length ++ payload

theorem toBytesBE_length (w n : Nat) : (toBytesBE w n).length = w := by
  simp [toBytesBE, toBytesLE_length]

theorem fromBytesBE_toBytesBE (w n : Nat) (h : n < 256 ^ w) (rest : List Nat) :
    fromBytesBE w (toBytesBE w n ++ rest) = n := by
  have hlen : (toBytesBE w n).length = w := toBytesBE_length w n
  have ht := List.take_left (toBytesBE w n) rest
  rw [hlen] at ht
  unfold fromBytesBE
  rw [ht]
  unfold toBytesBE
  rw [List.reverse_reverse]
  exact fromBytesLE_toBytesLE w n h

theorem scan_frame_ok (payload tail : List Nat) (r : WALRecord)
    (hnz : payload.length ≠ 0) (hlt : payload.length < 2 ^ 32)
    (hdec : decodeWALRecord payload = some r) :
    scanRecordsGo (walFrame payload ++ tail) =
      (r :: (scanRecordsGo tail).1, 4 + payload.length + (scanRecordsGo tail).2) := by
  have h256 : payload.length < 256 ^ 4 := by norm_num at hlt ⊢; omega
  have hhead : fromBytesBE 4 (toBytesBE 4 payload.length ++ (payload ++ tail)) =
      payload.length := fromBytesBE_toBytesBE 4 _ h256 _
  have hblen : (toBytesBE 4 payload.length).length = 4 := toBytesBE_length 4 _
  have hdrop : (toBytesBE 4 payload.length ++ (payload ++ tail)).drop 4 =
      payload ++ tail := by
    have h := List.drop_left (toBytesBE 4 payload.length) (payload ++ tail)
    rwa [hblen] at h
  have hlen : ¬ ((toBytesBE 4 payload.length ++ (payload ++ tail)).length < 4) := by
    simp [List.length_append, hblen]
  rw [walFrame, List.append_assoc, scanRecordsGo.eq_def, dif_neg hlen]
  simp only [hhead, hdrop, if_neg hnz]
  rw [dif_neg (by simp only [List.length_append]; omega), List.take_left, hdec,
    List.drop_left]

theorem scan_frame_skip (payload tail : List Nat)
    (hnz : payload.length ≠ 0) (hlt : payload.length < 2 ^ 32)
    (hdec : decodeWALRecord payload = none) :
    scanRecordsGo (walFrame payload ++ tail) =
      ((scanRecordsGo tail).1, 4 + payload.length + (scanRecordsGo tail).2) := by
  have h256 : payload.length < 256 ^ 4 := by norm_num at hlt ⊢; omega
  have hhead : fromBytesBE 4 (toBytesBE 4 payload.length ++ (payload ++ tail)) =
      payload.length := fromBytesBE_toBytesBE 4 _ h256 _
  have hblen : (toBytesBE 4 payload.length).length = 4 := toBytesBE_length 4 _
  have hdrop : (toBytesBE 4 payload.length ++ (payload ++ tail)).drop 4 =
      payload ++ tail := by
    have h := List.drop_left (toBytesBE 4 payload.length) (payload ++ tail)
    rwa [hblen] at h
  have hlen : ¬ ((toBytesBE 4 payload.length ++ (payload ++ tail)).length < 4) := by
    simp [List.length_append, hblen]
  rw [walFrame, List.append_assoc, scanRecordsGo.eq_def, dif_neg hlen]
  simp only [hhead, hdrop, if_neg hnz]
  rw [dif_neg (by simp only [List.length_append]; omega), List.take_left, hdec,
    List.drop_left]

theorem scan_zero_header (tail : List Nat) :
    scanRecordsGo (toBytesBE 4 0 ++ tail) = ([], 0) := by
  have hhead : fromBytesBE 4 (toBytesBE 4 0 ++ tail) = 0 :=
    fromBytesBE_toBytesBE 4 0 (by norm_num) tail
  have hblen : (toBytesBE 4 0).length = 4 := toBytesBE_length 4 0
  have hlen : ¬ ((toBytesBE 4 0 ++ tail).length < 4) := by
    simp [List.length_append, hblen]
  rw [scanRecordsGo.eq_def, dif_neg hlen]
  simp [hhead]

theorem scan_truncated (ps : Nat) (tail : List Nat)
    (hnz : ps ≠ 0) (hlt : ps < 2 ^ 32) (htr : tail.length < ps) :
    scanRecordsGo (toBytesBE 4 ps ++ tail) = ([], 4) := by
  have h256 : ps < 256 ^ 4 := by norm_num at hlt ⊢; omega
  have hhead : fromBytesBE 4 (toBytesBE 4 ps ++ tail) = ps :=
    fromBytesBE_toBytesBE 4 ps h256 tail
  have hblen : (toBytesBE 4 ps).length = 4 := toBytesBE_length 4 ps
  have hdrop : (toBytesBE 4 ps ++ tail).drop 4 = tail := by
    have h := List.drop_left (toBytesBE 4 ps) tail
    rwa [hblen] at h
  have hlen : ¬ ((toBytesBE 4 ps ++ tail).length < 4) := by
    simp [List.length_append, hblen]
  rw [scanRecordsGo.eq_def, dif_neg hlen]
  simp only [hhead, hdrop, if_neg hnz]
  rw [dif_pos htr]

/-- C4 amended: during a segment scan, a zero 4-byte length header
ends the scan with the offset unchanged, and a truncated payload ends
it with the offset advanced past the 4-byte header; but a frame whose
payload fails to decode is logged and *skipped* — the scan continues
with the following frame, so records located after an undecodable
frame are still returned. -/
theorem C4_scan_records_skip_semantics :
    (∀ payload tail r, payload.length ≠ 0 → payload.length < 2 ^ 32 →
        decodeWALRecord payload = some r →
        scanRecordsGo (walFrame payload ++ tail) =
          (r :: (scanRecordsGo tail).1, 4 + payload.length + (scanRecordsGo tail).2)) ∧
      (∀ payload tail, payload.length ≠ 0 → payload.length < 2 ^ 32 →
        decodeWALRecord payload = none →
        scanRecordsGo (walFrame payload ++ tail) =
          ((scanRecordsGo tail).1, 4 + payload.length + (scanRecordsGo tail).2)) ∧
      (∀ tail, scanRecordsGo (toBytesBE 4 0 ++ tail) = ([], 0)) ∧
      (∀ ps tail, ps ≠ 0 → ps < 2 ^ 32 → tail.length < ps →
        scanRecordsGo (toBytesBE 4 ps ++ tail) = ([], 4)) :=
  ⟨scan_frame_ok, scan_frame_skip, scan_zero_header, scan_truncated⟩

/-- First record of the C4 counterexample buffer. -/
def c4r1 : WALRecord := ⟨1, .Delete, ⟨[65], [66], none⟩⟩

/-- Record located *after* the undecodable frame. -/
def c4r3 : WALRecord := ⟨2, .Delete, ⟨[67], [68], none⟩⟩

/-- C4 counterexample: scanning a segment holding a valid frame, then
a frame whose 1-byte payload fails to decode, then another valid
frame, then a zero header, returns BOTH valid records — the record
after the undecodable frame is returned, and the end offset (75)
spans all three frames, contradicting "no record located after an
undecodable frame of that segment is returned" and "the returned end
offset is the first non-parseable offset" (the first non-parseable
byte sits at offset 35). -/
theorem C4_counterexample :
    scan_records
        (walFrame (encodeWALRecord c4r1) ++
          (walFrame [7] ++ (walFrame (encodeWALRecord c4r3) ++ toBytesBE 4 0))) =
      ([c4r1, c4r3], 75) := by
  have hlen1 : (encodeWALRecord c4r1).length = 31 := by decide
  have hlen3 : (encodeWALRecord c4r3).length = 31 := by decide
  rw [scan_records,
    scan_frame_ok (encodeWALRecord c4r1) _ c4r1 (by decide) (by decide) (by decide),
    scan_frame_skip [7] _ (by decide) (by decide) (by decide),
    scan_frame_ok (encodeWALRecord c4r3) _ c4r3 (by decide) (by decide) (by decide)]
  have hz : scanRecordsGo (toBytesBE 4 0) = ([], 0) := by
    have h := scan_zero_header []
    simpa using h
  rw [hz, hlen1, hlen3]
  simp

/-- Witness for C4: instantiates all four behaviors at concrete
frames. -/
theorem C4_scan_records_skip_semantics_witness :
    (scanRecordsGo (walFrame (encodeWALRecord c4r1) ++ toBytesBE 4 0) =
        (c4r1 :: (scanRecordsGo (toBytesBE 4 0)).1,
          4 + (encodeWALRecord c4r1).length + (scanRecordsGo (toBytesBE 4 0)).2)) ∧
      (scanRecordsGo (walFrame [7] ++ toBytesBE 4 0) =
        ((scanRecordsGo (toBytesBE 4 0)).1,
          4 + ([7] : List Nat).length + (scanRecordsGo (toBytesBE 4 0)).2)) ∧
      (scanRecordsGo (toBytesBE 4 0 ++ []) = ([], 0)) ∧
      (scanRecordsGo (toBytesBE 4 9 ++ [1, 2, 3]) = ([], 4)) :=
  ⟨C4_scan_records_skip_semantics.1 (encodeWALRecord c4r1) (toBytesBE 4 0) c4r1
      (by decide) (by decide) (by decide),
   C4_scan_records_skip_semantics.2.1 [7] (toBytesBE 4 0)
      (by decide) (by decide) (by decide),
   C4_scan_records_skip_semantics.2.2.1 [],
   C4_scan_records_skip_semantics.2.2.2 9 [1, 2, 3] (by decide) (by decide) (by decide)⟩

/-! ## WAL segment reclamation — C5

`WALSegmentID::try_from(&str)` (`src/wal/segment_id.rs` lines 51–67)
rejects names whose length is not 16 and otherwise parses with
`u64::from_str_radix(value, 16)` (hex digits of either case, an
optional leading `+`, overflow rejected).

`WALManager::remove_old_wal_segments` (`src/wal/mod.rs` lines
210–236) walks the sorted file listing; each name is parsed with `?`
(a failure aborts the whole function), files with id strictly below
`last_checkpoint_segment_id` are deleted, and a `NotFound` from
`remove_file` is mapped to `Ok` (missing files tolerated — the
`present` flag of a directory entry does not influence the result). -/

def hexDigitVal (c : Char) : Option Nat :=
  if '0' ≤ c ∧ c ≤ '9' then some (c.toNat - '0'.toNat)
  else if 'a' ≤ c ∧ c ≤ 'f' then some (c.toNat - 'a'.toNat + 10)
  else if 'A' ≤ c ∧ c ≤ 'F' then some (c.toNat - 'A'.toNat + 10)
  else none

def parseHexGo : Nat → List Char → Option Nat
  | acc, [] => some acc
  | acc, c :: cs =>
    match hexDigitVal c with
    | none => none
    | some d =>
      if acc * 16 + d < 2 ^ 64 then parseHexGo (acc * 16 + d) cs else none

/-- `u64::from_str_radix(s, 16)`. -/
def u64_from_str_radix_16 : List Char → Option Nat
  | [] => none
  | '+' :: rest => if rest.isEmpty then none else parseHexGo 0 rest
  | s => parseHexGo 0 s

/-- `WALSegmentID::try_from(&str)`. -/
def WALSegmentID.tryFrom (s : List Char) : Option Nat :=
  if s.length ≠ 16 then none
  else u64_from_str_radix_16 s

/-- A directory entry as seen by `remove_old_wal_segments`: the file
name and whether the file still exists when its delete runs. -/
structure WalDirFile where
  name : List Char
  present : Bool

/-- `WALManager::remove_old_wal_segments`, returning the names whose
deletion was attempted, or `none` when a name fails to parse (the
`?` aborts).  Deletion of an absent file succeeds (`NotFound → Ok`),
so `present` plays no role. -/
def remove_old_wal_segments (last_checkpoint_segment_id : Nat) :
    List WalDirFile → Option (List (List Char))
  | [] => some []
  | f :: fs =>
    match WALSegmentID.tryFrom f.name with
    | none => none
    | some segment_id =>
      if segment_id < last_checkpoint_segment_id then
        match remove_old_wal_segments last_checkpoint_segment_id fs with
        | none => none
        | some ds => some (f.name :: ds)
      else remove_old_wal_segments last_checkpoint_segment_id fs

theorem append_shape (s : WALGlobalState) (r : WALRecord) (s' : WALGlobalState)
    (info : AppendOk) (h : WALManager.append s r = (s', some info)) :
    s'.last_record_id = (s.last_record_id + 1) % 2 ^ 64 ∧
      info.record_id = (s.last_record_id + 1) % 2 ^ 64 ∧
      info.segment_id = s'.last_segment_id ∧
      (s'.last_segment_id = s.last_segment_id ∨
        s'.last_segment_id = (s.last_segment_id + 1) % 2 ^ 64) ∧
      s'.last_checkpoint_record_id = s.last_checkpoint_record_id ∧
      s'.last_checkpoint_segment_id = s.last_checkpoint_segment_id := by
  simp only [WALManager.append] at h
  split_ifs at h <;>
    (simp only [Prod.mk.injEq, Option.some.injEq] at h
     obtain ⟨h1, h2⟩ := h
     first
       | exact Option.noConfusion h2
       | (subst h1; subst h2; simp))

theorem append_fail_shape (s : WALGlobalState) (r : WALRecord) (s' : WALGlobalState)
    (h : WALManager.append s r = (s', none)) :
    s'.last_record_id = s.last_record_id ∧
      (s'.last_segment_id = s.last_segment_id ∨
        s'.last_segment_id = (s.last_segment_id + 1) % 2 ^ 64) ∧
      s'.last_checkpoint_record_id = s.last_checkpoint_record_id ∧
      s'.last_checkpoint_segment_id = s.last_checkpoint_segment_id := by
  simp only [WALManager.append] at h
  split_ifs at h <;>
    (simp only [Prod.mk.injEq] at h
     obtain ⟨h1, h2⟩ := h
     first
       | exact Option.noConfusion h2
       | (subst h1; simp))

/-- One WAL-level event: a successful or failed `append` (with the
`u64` counters not overflowing during the step), or the checkpoint
advance performed at the end of `DiskTableManager::write_memtable`
(`src/disktable/mod.rs` lines 262–276):
`last_checkpoint_record_id := last_record_id;
last_checkpoint_segment_id := last_segment_id`.  The second component
is the ghost directory: per segment id, the record ids written to it. -/
inductive WALStep :
    WALGlobalState × (Nat → List Nat) → WALGlobalState × (Nat → List Nat) → Prop where
  | append (s : WALGlobalState) (segs : Nat → List Nat) (r : WALRecord)
      (s' : WALGlobalState) (info : AppendOk)
      (hrec : s.last_record_id + 1 < 2 ^ 64) (hseg : s.last_segment_id + 1 < 2 ^ 64)
      (h : WALManager.append s r = (s', some info)) :
      WALStep (s, segs)
        (s', fun g => if g = info.segment_id then segs g ++ [info.record_id] else segs g)
  | appendFail (s : WALGlobalState) (segs : Nat → List Nat) (r : WALRecord)
      (s' : WALGlobalState) (hseg : s.last_segment_id + 1 < 2 ^ 64)
      (h : WALManager.append s r = (s', none)) :
      WALStep (s, segs) (s', segs)
  | checkpoint (s : WALGlobalState) (segs : Nat → List Nat) :
      WALStep (s, segs)
        ({ s with
           last_checkpoint_record_id := s.last_record_id,
           last_checkpoint_segment_id := s.last_segment_id }, segs)

/-- States reachable from a fresh WAL. -/
def WALReachable : WALGlobalState × (Nat → List Nat) → Prop :=
  Relation.ReflTransGen WALStep (walInitialState, fun _ => [])

/-- Invariant tying the ghost directory to the counters. -/
def walInv (p : WALGlobalState × (Nat → List Nat)) : Prop :=
  (∀ g, ∀ id ∈ p.2 g, id ≤ p.1.last_record_id) ∧
    p.1.last_checkpoint_record_id ≤ p.1.last_record_id ∧
    p.1.last_checkpoint_segment_id ≤ p.1.last_segment_id ∧
    (∀ g, g < p.1.last_checkpoint_segment_id →
      ∀ id ∈ p.2 g, id ≤ p.1.last_checkpoint_record_id)

theorem walInv_def (s : WALGlobalState) (segs : Nat → List Nat) :
    walInv (s, segs) ↔
      ((∀ g, ∀ id ∈ segs g, id ≤ s.last_record_id) ∧
        s.last_checkpoint_record_id ≤ s.last_record_id ∧
        s.last_checkpoint_segment_id ≤ s.last_segment_id ∧
        (∀ g, g < s.last_checkpoint_segment_id →
          ∀ id ∈ segs g, id ≤ s.last_checkpoint_record_id)) :=
  Iff.rfl

theorem walInv_step (p q : WALGlobalState × (Nat → List Nat))
    (hstep : WALStep p q) (hinv : walInv p) : walInv q := by
  cases hstep with
  | append s segs r s' info hrec hseg h =>
    rw [walInv_def] at hinv
    rw [walInv_def]
    obtain ⟨i1, i2, i3, i4⟩ := hinv
    obtain ⟨h1, h2, h3, h4, h5, h6⟩ := append_shape s r s' info h
    rw [Nat.mod_eq_of_lt hrec] at h1 h2
    have hsegle : s.last_segment_id ≤ s'.last_segment_id := by
      rcases h4 with h4 | h4
      · omega
      · rw [Nat.mod_eq_of_lt hseg] at h4
        omega
    refine ⟨?_, ?_, ?_, ?_⟩
    · intro g id hid
      change id ∈ (if g = info.segment_id then segs g ++ [info.record_id] else segs g)
        at hid
      by_cases hg : g = info.segment_id
      · rw [if_pos hg, List.mem_append] at hid
        rcases hid with hid | hid
        · have := i1 g id hid
          omega
        · simp only [List.mem_singleton] at hid
          omega
      · rw [if_neg hg] at hid
        have := i1 g id hid
        omega
    · omega
    · omega
    · intro g hg id hid
      rw [h6] at hg
      change id ∈ (if g = info.segment_id then segs g ++ [info.record_id] else segs g)
        at hid
      by_cases hgeq : g = info.segment_id
      · exfalso
        rw [hgeq, h3] at hg
        omega
      · rw [if_neg hgeq] at hid
        rw [h5]
        exact i4 g hg id hid
  | appendFail s segs r s' hseg h =>
    rw [walInv_def] at hinv
    rw [walInv_def]
    obtain ⟨i1, i2, i3, i4⟩ := hinv
    obtain ⟨h1, h4, h5, h6⟩ := append_fail_shape s r s' h
    have hsegle : s.last_segment_id ≤ s'.last_segment_id := by
      rcases h4 with h4 | h4
      · omega
      · rw [Nat.mod_eq_of_lt hseg] at h4
        omega
    refine ⟨?_, ?_, ?_, ?_⟩
    · intro g id hid
      have := i1 g id hid
      omega
    · omega
    · omega
    · intro g hg id hid
      rw [h6] at hg
      rw [h5]
      exact i4 g hg id hid
  | checkpoint s segs =>
    rw [walInv_def] at hinv
    rw [walInv_def]
    obtain ⟨i1, i2, i3, i4⟩ := hinv
    exact ⟨i1, le_rfl, le_rfl, fun g _ id hid => i1 g id hid⟩

theorem walInv_reachable (p : WALGlobalState × (Nat → List Nat))
    (h : WALReachable p) : walInv p := by
  induction h with
  | refl =>
    refine ⟨?_, ?_, ?_, ?_⟩ <;> simp [walInitialState]
  | tail _ hbc ih => exact walInv_step _ _ hbc ih

theorem remove_old_wal_segments_eq (cp : Nat) (files : List WalDirFile)
    (pid : WalDirFile → Nat)
    (hparse : ∀ f ∈ files, WALSegmentID.tryFrom f.name = some (pid f)) :
    remove_old_wal_segments cp files =
      some ((files.filter (fun f => pid f < cp)).map (fun f => f.name)) := by
  induction files with
  | nil => rfl
  | cons f fs ih =>
    have hf := hparse f (by simp)
    have ih' := ih (fun g hg => hparse g (by simp [hg]))
    simp only [remove_old_wal_segments, hf]
    by_cases hlt : pid f < cp
    · rw [if_pos hlt, ih']
      simp [List.filter_cons, hlt]
    · rw [if_neg hlt, ih']
      simp [List.filter_cons, hlt]

/-- C5: for every reachable WAL state, `remove_old_wal_segments`
deletes exactly the files whose 16-hex name parses to an id strictly
below `last_checkpoint_segment_id` (assuming every name in the
directory parses — a stray unparseable name aborts the whole
function), missing files being tolerated by construction; and every
record in such a segment has `record_id ≤ last_checkpoint_record_id`,
so reclamation is safe. -/
theorem C5_remove_old_segments_safety (s : WALGlobalState) (segs : Nat → List Nat)
    (hreach : WALReachable (s, segs)) (files : List WalDirFile)
    (pid : WalDirFile → Nat)
    (hparse : ∀ f ∈ files, WALSegmentID.tryFrom f.name = some (pid f)) :
    remove_old_wal_segments s.last_checkpoint_segment_id files =
        some ((files.filter (fun f => pid f < s.last_checkpoint_segment_id)).map
          (fun f => f.name)) ∧
      ∀ f ∈ files, pid f < s.last_checkpoint_segment_id →
        ∀ id ∈ segs (pid f), id ≤ s.last_checkpoint_record_id := by
  have hinv := walInv_reachable _ hreach
  refine ⟨remove_old_wal_segments_eq _ files pid hparse, ?_⟩
  intro f _ hlt id hid
  exact hinv.2.2.2 (pid f) hlt id hid

/-- Witness for C5 at the fresh WAL with one properly named segment
file. -/
theorem C5_remove_old_segments_safety_witness :
    WALReachable (walInitialState, fun _ => []) ∧
      remove_old_wal_segments walInitialState.last_checkpoint_segment_id
          [⟨("0000000000000000" : String).toList, true⟩] =
        some (([⟨("0000000000000000" : String).toList, true⟩].filter
          (fun f => (fun _ => 0 : WalDirFile → Nat) f <
            walInitialState.last_checkpoint_segment_id)).map (fun f => f.name)) :=
  ⟨Relation.ReflTransGen.refl,
   (C5_remove_old_segments_safety walInitialState (fun _ => [])
      Relation.ReflTransGen.refl
      [⟨("0000000000000000" : String).toList, true⟩] (fun _ => 0)
      (by intro f hf; simp only [List.mem_singleton] at hf; subst hf; decide)).1⟩

/-! ## Memtable manager and the read path — C2

`HashMemtable` (`src/memtable/mod.rs`) is a hash map
`String → MemtableEntry { value: Option<String> }`; a `none` value is
a tombstone.  Hash maps are modelled as association lists with
insert-or-replace; strings as UTF-8 byte lists. -/

/-- `MemtableGetResult` (`src/memtable/mod.rs`). -/
inductive MemtableGetResult where
  | Found (value : List Nat)
  | NotFound
  | Deleted
  deriving DecidableEq, Repr

/-- `DisktableGetResult` (`src/disktable/mod.rs`). -/
inductive DisktableGetResult where
  | Found (value : List Nat)
  | NotFound
  | Deleted
  deriving DecidableEq, Repr

/-- Result of `DBEngine::get_value`: a value, or
`Errors::ValueNotFound` with the "(deleted)" message, or
`Errors::ValueNotFound` with the plain message. -/
inductive GetValueResult where
  | Ok (value : List Nat)
  | ErrDeleted
  | ErrNotFound
  deriving DecidableEq, Repr

/-- Insert-or-replace into an association list (`HashMap::insert`). -/
def assocInsert {α β : Type} [DecidableEq α] :
    List (α × β) → α → β → List (α × β)
  | [], k, v => [(k, v)]
  | (k', v') :: rest, k, v =>
    if k' = k then (k, v) :: rest else (k', v') :: assocInsert rest k v

/-- One table's memtable: key → optional value (`none` = tombstone). -/
def HashMemtable.get (m : List (List Nat × Option (List Nat))) (key : List Nat) :
    MemtableGetResult :=
  match List.lookup key m with
  | none => .NotFound
  | some none => .Deleted
  | some (some v) => .Found v

/-- The shared state of `MemtableManager` relevant to reads and
`trigger_flush`. -/
structure MemtableManagerState where
  memtable_map : List (List Nat × List (List Nat × Option (List Nat)))
  flushing_memtable_map : List (List Nat × List (List Nat × Option (List Nat)))
  memtable_current_size : Nat
  block_write : Bool

/-- `MemtableManager::get`: consult the active memtable of the table. -/
def MemtableManager.get (st : MemtableManagerState) (table key : List Nat) :
    MemtableGetResult :=
  match List.lookup table st.memtable_map with
  | some m => HashMemtable.get m key
  | none => .NotFound

/-- `MemtableManager::get_from_flushing`: consult the flushing map. -/
def MemtableManager.get_from_flushing (st : MemtableManagerState) (table key : List Nat) :
    MemtableGetResult :=
  match List.lookup table st.flushing_memtable_map with
  | some m => HashMemtable.get m key
  | none => .NotFound

/-- `MemtableManager::trigger_flush` (`src/memtable/mod.rs` lines
158–195).  When `block_write` is already set the compare-exchange
fails and the call returns `MemtableFlushAlreadyInProgress` (`none`
event).  Otherwise: reset the size counter; insert a fresh empty
memtable into the flushing map for every active table;
`std::mem::swap` the two maps; then `std::mem::take` the whole
flushing map — leaving it **empty** — and send it as the flush event;
finally clear `block_write`. -/
def MemtableManager.trigger_flush (st : MemtableManagerState) :
    MemtableManagerState ×
      Option (List (List Nat × List (List Nat × Option (List Nat)))) :=
  if st.block_write then (st, none)
  else
    let flushing_with_empties :=
      st.memtable_map.foldl (fun acc t => assocInsert acc t.1 []) st.flushing_memtable_map
    ({ memtable_map := flushing_with_empties,
       flushing_memtable_map := [],
       memtable_current_size := 0,
       block_write := false },
     some st.memtable_map)

/-- `DBEngine::get_value` (`src/db.rs` lines 257–306) after input
validation: active memtable, then flushing memtable, then the disk
table (modelled abstractly by `disk`, since the claim must hold
"regardless of disk state"). -/
def DBEngine.get_value (st : MemtableManagerState)
    (disk : List Nat → List Nat → DisktableGetResult)
    (table key : List Nat) : GetValueResult :=
  match MemtableManager.get st table key with
  | .Deleted => .ErrDeleted
  | .Found v => .Ok v
  | .NotFound =>
    match MemtableManager.get_from_flushing st table key with
    | .Deleted => .ErrDeleted
    | .Found v => .Ok v
    | .NotFound =>
      match disk table key with
      | .Found v => .Ok v
      | _ => .ErrNotFound

/-- Tombstone shadowing holds whenever the tombstone is actually in
the active map: reads report the key as deleted without consulting
the disk. -/
theorem get_value_active_tombstone (st : MemtableManagerState)
    (disk : List Nat → List Nat → DisktableGetResult) (table key : List Nat)
    (m : List (List Nat × Option (List Nat)))
    (hm : List.lookup table st.memtable_map = some m)
    (hk : List.lookup key m = some none) :
    DBEngine.get_value st disk table key = .ErrDeleted := by
  unfold DBEngine.get_value MemtableManager.get HashMemtable.get
  rw [hm]
  simp only [hk]

/-- State of the C2 scenario: table `t` (`[116]`) whose active
memtable holds a tombstone for key `k` (`[107]`); nothing flushing. -/
def c2State : MemtableManagerState :=
  { memtable_map := [([116], [([107], none)])],
    flushing_memtable_map := [],
    memtable_current_size := 0,
    block_write := false }

/-- Disk contents for the C2 scenario: the stale value `v` (`[118]`)
for `(t, k)`. -/
def c2Disk : List Nat → List Nat → DisktableGetResult :=
  fun t k => if t = [116] ∧ k = [107] then .Found [118] else .NotFound

/-- C2: before `trigger_flush` the tombstone shadows the disk
(`ErrDeleted`); `trigger_flush` moves the displaced active map into
the flush event and leaves `flushing_memtable_map` empty, so while
the bridge drains the event the tombstone is invisible to readers and
`get_value` returns the stale disk value — the deleted key is
resurrected during the flush window, contradicting the claim. -/
theorem C2_tombstone_lost_during_flush :
    DBEngine.get_value c2State c2Disk [116] [107] = .ErrDeleted ∧
      (MemtableManager.trigger_flush c2State).2 = some [([116], [([107], none)])] ∧
      (MemtableManager.trigger_flush c2State).1.flushing_memtable_map = [] ∧
      MemtableManager.get_from_flushing (MemtableManager.trigger_flush c2State).1
          [116] [107] = .NotFound ∧
      DBEngine.get_value (MemtableManager.trigger_flush c2State).1 c2Disk
          [116] [107] = .Ok [118] := by
  refine ⟨?_, ?_, ?_, ?_, ?_⟩ <;> decide

/-! ## B-tree index file validation — C9

`BTreeIndex::initialize` (`src/disktable/index/btree.rs` lines
210–249) reads `index.metadata`; when it exists and decodes it runs
`validate_index_files` (lines 252–378) and, if that returns `false`,
deletes every file whose name starts with `index.btree`
(`cleanup_index_files`, lines 381–417) and persists fresh default
metadata, returning success.

The file system visible to `validate_index_files` is abstracted:
which `index.btree[.N]` files exist, their sizes, the `u32` size
header readable at a given (segment, offset), and whether the bytes
of the root block decode as a `BTreeNode`. -/

def INDEX_SEGMENT_SIZE : Nat := 1024 * 1024 * 1024

/-- `BTreeMetadata` (`src/disktable/index/btree.rs`). -/
structure BTreeMetadata where
  root_position : Option Nat
  order : Nat
  next_offset : Nat

/-- Abstract view of the index directory. -/
structure IndexFS where
  segExists : Nat → Bool
  segSize : Nat → Nat
  headerAt : Nat → Nat → Nat
  rootDecodes : Bool

/-- `BTreeIndex::validate_index_files` (lines 252–378), in order:
`next_offset = 0` is valid iff no root; otherwise a missing root is
inconsistent; every segment file `0 ..= next_offset / 1GiB` must
exist; the root's segment file must open; the block at the root must
satisfy `offset + 4 ≤ size`, a size header that is ≤ 10_000_000,
nonzero, within the file bounds, and decode as a node. -/
def validate_index_files (md : BTreeMetadata) (fs : IndexFS) : Bool :=
  if md.next_offset = 0 then
    !md.root_position.isSome
  else
    match md.root_position with
    | none => false
    | some rootOff =>
      let lastSegment := md.next_offset / INDEX_SEGMENT_SIZE
      if !(List.range (lastSegment + 1)).all fs.segExists then false
      else
        let segment_number := rootOff / INDEX_SEGMENT_SIZE
        let segment_offset := rootOff % INDEX_SEGMENT_SIZE
        if !fs.segExists segment_number then false
        else
          let file_size := fs.segSize segment_number
          if segment_offset + 4 > file_size then false
          else
            let node_size := fs.headerAt segment_number segment_offset
            if node_size > 10000000 then false
            else if node_size = 0 then false
            else if segment_offset + 4 + node_size > file_size then false
            else fs.rootDecodes

/-- The corruption condition exactly as the claim words it:
`next_offset = 0` with a root, `next_offset > 0` without a root, or
the block containing the root cannot be read or decoded (root file
unopenable, header unreadable, declared size > 10 MB, zero size on a
used offset, size exceeding the file bounds, or node decode failure). -/
def c9ClaimCorrupt (md : BTreeMetadata) (fs : IndexFS) : Bool :=
  match md.root_position with
  | none => decide (0 < md.next_offset)
  | some rootOff =>
    if md.next_offset = 0 then true
    else
      let segment_number := rootOff / INDEX_SEGMENT_SIZE
      let segment_offset := rootOff % INDEX_SEGMENT_SIZE
      !fs.segExists segment_number ||
        decide (segment_offset + 4 > fs.segSize segment_number) ||
        decide (fs.headerAt segment_number segment_offset > 10000000) ||
        decide (fs.headerAt segment_number segment_offset = 0) ||
        decide (segment_offset + 4 + fs.headerAt segment_number segment_offset >
          fs.segSize segment_number) ||
        !fs.rootDecodes

/-- `BTreeMetadata::default()` (btree.rs lines 102–110): no root,
order 64, `next_offset = 0`.  This is the in-memory metadata installed
by `BTreeIndex::new` and still current when `initialize` takes the
self-heal branch. -/
def BTreeMetadata.default : BTreeMetadata :=
  ⟨none, 64, 0⟩

/-- `p.isPrefixOf x` on byte strings: Rust `str::starts_with`. -/
def listStartsWith : List Nat → List Nat → Bool
  | [], _ => true
  | _ :: _, [] => false
  | p :: ps, x :: xs => p = x && listStartsWith ps xs

/-- The bytes of `"index.btree"`, the name prefix that
`cleanup_index_files` matches. -/
def indexBtreeName : List Nat :=
  [105, 110, 100, 101, 120, 46, 98, 116, 114, 101, 101]

/-- `BTreeIndex::cleanup_index_files` (btree.rs lines 381–417) on the
index directory, viewed as the list of its file names (byte strings):
every file whose name starts with `index.btree` is removed, all other
files (in particular `index.metadata`) are kept. -/
def cleanup_index_files (dir : List (List Nat)) : List (List Nat) :=
  dir.filter (fun name => !(listStartsWith indexBtreeName name))

/-- Outcome of `initialize`'s existing-metadata branch: the in-memory
metadata afterwards, the surviving directory file names, the metadata
persisted by `save_metadata` (if any), and whether `Ok(())` was
returned. -/
structure InitializeResult where
  mem : BTreeMetadata
  dirFiles : List (List Nat)
  persisted : Option BTreeMetadata
  isOk : Bool

/-- `BTreeIndex::initialize` (btree.rs lines 210–249) on an existing
`index.metadata` that decodes to `md` — named `initializeIndex` here.
If `validate_index_files` passes, the decoded metadata is installed
in memory and nothing is deleted or rewritten; otherwise the index is
treated as corrupted: `cleanup_index_files` deletes the
`index.btree*` files and `save_metadata` persists the in-memory
metadata, which is still `BTreeMetadata::default()` from
`BTreeIndex::new` (the invalid branch never assigns it).  Both
branches end in `Ok(())`.  I/O failures of the deletion and the
metadata write (each would abort via `?`) are elided by the
abstraction. -/
def initializeIndex (md : BTreeMetadata) (fs : IndexFS) (dir : List (List Nat)) :
    InitializeResult :=
  if validate_index_files md fs then
    ⟨md, dir, none, true⟩
  else
    ⟨BTreeMetadata.default, cleanup_index_files dir, some BTreeMetadata.default, true⟩

/-- C9 counterexample metadata: root at offset 0, `next_offset` in
the second 1-GiB segment. -/
def c9md : BTreeMetadata :=
  ⟨some 0, 64, INDEX_SEGMENT_SIZE + 8192⟩

/-- C9 counterexample directory: only `index.btree` (segment 0)
exists, 8192 bytes, with a perfectly healthy root block —
`index.btree.1` is missing. -/
def c9fs : IndexFS :=
  { segExists := fun n => n = 0,
    segSize := fun _ => 8192,
    headerAt := fun _ _ => 100,
    rootDecodes := true }

/-- C9 counterexample: the root block is readable and decodes and the
metadata is consistent — none of the claim's corruption conditions
holds — yet `validate_index_files` reports corruption (and
`initialize` self-heals, wiping the index) because the intermediate
segment file `index.btree.1` implied by `next_offset` is missing;
the claim's "exactly when" enumeration omits this condition. -/
theorem C9_counterexample :
    validate_index_files c9md c9fs = false ∧ c9ClaimCorrupt c9md c9fs = false := by
  constructor <;> decide

/-- C9 amended: on an existing, decodable `index.metadata`,
`initialize` treats the index as corrupted exactly when one of the
claim's conditions holds **or** some segment file `index.btree[.N]`
with `N ≤ next_offset / 1 GiB` is missing while the index is
nonempty; in every such case it deletes exactly the directory files
whose names start with `index.btree` (all other files survive
untouched), leaves the in-memory metadata at its fresh default,
persists that default metadata, and returns success — so subsequent
inserts operate on an empty index; in the valid case it installs the
decoded metadata and deletes and rewrites nothing. -/
theorem C9_validate_characterization (md : BTreeMetadata) (fs : IndexFS)
    (dir : List (List Nat)) :
    (validate_index_files md fs = false ↔
      (c9ClaimCorrupt md fs = true ∨
        (0 < md.next_offset ∧ md.root_position.isSome = true ∧
          ¬ ((List.range (md.next_offset / INDEX_SEGMENT_SIZE + 1)).all
            fs.segExists = true)))) ∧
    (validate_index_files md fs = false →
      (initializeIndex md fs dir).mem = BTreeMetadata.default ∧
      (∀ name ∈ (initializeIndex md fs dir).dirFiles,
        listStartsWith indexBtreeName name = false) ∧
      (∀ name ∈ dir, listStartsWith indexBtreeName name = false →
        name ∈ (initializeIndex md fs dir).dirFiles) ∧
      (initializeIndex md fs dir).persisted = some BTreeMetadata.default ∧
      (initializeIndex md fs dir).isOk = true) ∧
    (validate_index_files md fs = true →
      initializeIndex md fs dir = ⟨md, dir, none, true⟩) := by
  refine ⟨?_, ?_, ?_⟩
  · unfold validate_index_files c9ClaimCorrupt
    cases hroot : md.root_position with
    | none =>
      by_cases h0 : md.next_offset = 0
      · simp [h0]
      · simp [h0]
        omega
    | some rootOff =>
      by_cases h0 : md.next_offset = 0
      · simp [h0]
      · simp only [if_neg h0]
        by_cases hall : (List.range (md.next_offset / INDEX_SEGMENT_SIZE + 1)).all
            fs.segExists = true
        · simp only [hall, Bool.not_true, Bool.false_eq_true, if_false]
          by_cases hex : fs.segExists (rootOff / INDEX_SEGMENT_SIZE) = true
          · simp only [hex, Bool.not_true, Bool.false_eq_true, if_false]
            split_ifs with hsz hbig hzero hbound <;>
              simp_all
          · simp_all
        · simp_all
          exact Or.inr (Nat.pos_of_ne_zero h0)
  · intro h
    have hinit : initializeIndex md fs dir
        = ⟨BTreeMetadata.default, cleanup_index_files dir,
          some BTreeMetadata.default, true⟩ := by
      unfold initializeIndex
      rw [if_neg (by simp [h])]
    refine ⟨by rw [hinit], ?_, ?_, by rw [hinit], by rw [hinit]⟩
    · intro name hname
      rw [hinit] at hname
      simp only [cleanup_index_files] at hname
      have hm := List.mem_filter.mp hname
      simpa using hm.2
    · intro name hn hsw
      rw [hinit]
      simp only [cleanup_index_files]
      exact List.mem_filter.mpr ⟨hn, by simp [hsw]⟩
  · intro h
    unfold initializeIndex
    rw [if_pos h]

/-- Directory names for the C9 witness: `index.btree`,
`index.btree.1` and `index.metadata`. -/
def c9dir : List (List Nat) :=
  [indexBtreeName, indexBtreeName ++ [46, 49],
    [105, 110, 100, 101, 120, 46, 109, 101, 116, 97, 100, 97, 116, 97]]

/-- Witness for `C9_validate_characterization`: at the concrete
corrupted metadata/directory `c9md`/`c9fs`/`c9dir`, validation fails
and the self-heal branch resets the in-memory metadata, persists the
default metadata and reports success. -/
theorem C9_validate_characterization_witness :
    validate_index_files c9md c9fs = false ∧
    (initializeIndex c9md c9fs c9dir).mem = BTreeMetadata.default ∧
    (initializeIndex c9md c9fs c9dir).persisted = some BTreeMetadata.default ∧
    (initializeIndex c9md c9fs c9dir).isOk = true :=
  ⟨by decide,
    ((C9_validate_characterization c9md c9fs c9dir).2.1 (by decide)).1,
    ((C9_validate_characterization c9md c9fs c9dir).2.1 (by decide)).2.2.2.1,
    ((C9_validate_characterization c9md c9fs c9dir).2.1 (by decide)).2.2.2.2⟩


/-! ## B-tree index: keys, byte-wise order, record positions

`src/disktable/index/btree.rs`.  B-tree keys are Rust `String`s
compared with `Ord` (lexicographic on the UTF-8 bytes); we model a key
as its list of bytes and `str::cmp` as lexicographic comparison of
byte lists. -/

/-- `src/disktable/segment/position.rs`: position of a record inside a
disk-table segment (`segment_id : u64`, `offset : u32`). -/
structure TableRecordPosition where
  segment_id : Nat
  offset : Nat
deriving DecidableEq, Repr

/-- Rust `Ord::cmp` on `str` / `String` / byte slices: lexicographic
comparison of the bytes. -/
def bytesCmp : List Nat → List Nat → Ordering
  | [], [] => .eq
  | [], _ :: _ => .lt
  | _ :: _, [] => .gt
  | a :: ar, b :: br =>
    if a < b then .lt else if b < a then .gt else bytesCmp ar br

/-- Rust `a <= b` on keys (`cmp` is not `Greater`). -/
def keyLe (a b : List Nat) : Prop := bytesCmp a b ≠ .gt

/-- Rust `a < b` on keys (`cmp` is `Less`). -/
def keyLt (a b : List Nat) : Prop := bytesCmp a b = .lt

instance (a b : List Nat) : Decidable (keyLe a b) := by unfold keyLe; infer_instance

instance (a b : List Nat) : Decidable (keyLt a b) := by unfold keyLt; infer_instance

theorem bytesCmp_eq_iff (a b : List Nat) : bytesCmp a b = .eq ↔ a = b := by
  induction a generalizing b with
  | nil => cases b <;> simp [bytesCmp]
  | cons x ar ih =>
    cases b with
    | nil => simp [bytesCmp]
    | cons y br =>
      by_cases h1 : x < y
      · simp [bytesCmp, h1]
        omega
      · by_cases h2 : y < x
        · simp [bytesCmp, h1, h2]
          omega
        · have hxy : x = y := by omega
          simp [bytesCmp, h1, h2, hxy, ih]

theorem bytesCmp_self (a : List Nat) : bytesCmp a a = .eq :=
  (bytesCmp_eq_iff a a).mpr rfl

theorem bytesCmp_swap (a b : List Nat) : bytesCmp b a = (bytesCmp a b).swap := by
  induction a generalizing b with
  | nil => cases b <;> simp [bytesCmp, Ordering.swap]
  | cons x ar ih =>
    cases b with
    | nil => simp [bytesCmp, Ordering.swap]
    | cons y br =>
      by_cases h1 : x < y
      · have h2 : ¬ y < x := by omega
        simp [bytesCmp, h1, h2, Ordering.swap]
      · by_cases h2 : y < x
        · simp [bytesCmp, h1, h2, Ordering.swap]
        · simp [bytesCmp, h1, h2, ih]

theorem bytesCmp_gt_iff (a b : List Nat) : bytesCmp a b = .gt ↔ bytesCmp b a = .lt := by
  rw [bytesCmp_swap a b]
  cases h : bytesCmp a b <;> simp [Ordering.swap]

theorem keyLt_trans {a b c : List Nat} (h1 : keyLt a b) (h2 : keyLt b c) : keyLt a c := by
  unfold keyLt at *
  induction a generalizing b c with
  | nil =>
    cases b with
    | nil => simp [bytesCmp] at h1
    | cons y br => cases c with
      | nil => simp [bytesCmp] at h2
      | cons z cr => simp [bytesCmp]
  | cons x ar ih =>
    cases b with
    | nil => simp [bytesCmp] at h1
    | cons y br =>
      cases c with
      | nil => simp [bytesCmp] at h2
      | cons z cr =>
        simp only [bytesCmp] at h1 h2 ⊢
        by_cases hxy : x < y
        · have hyz : ¬ z < y := by
            intro hzy
            simp [if_neg (show ¬ y < z by omega), if_pos hzy] at h2
          have hxz : x < z := by
            by_cases hyz2 : y < z
            · omega
            · have : y = z := by omega
              omega
          simp [hxz]
        · by_cases hyx : y < x
          · simp [hxy, hyx] at h1
          · have hxy2 : x = y := by omega
            subst hxy2
            simp only [if_neg hxy, if_neg hyx] at h1
            by_cases hyz : x < z
            · simp [hyz]
            · by_cases hzy : z < x
              · simp [hxy, hzy] at h2
                omega
              · have : x = z := by omega
                subst this
                simp only [if_neg hyz, if_neg hzy] at h2 ⊢
                exact ih h1 h2

theorem keyLe_iff (a b : List Nat) : keyLe a b ↔ keyLt a b ∨ a = b := by
  unfold keyLe keyLt
  rw [← bytesCmp_eq_iff a b]
  cases bytesCmp a b <;> simp

theorem keyLe_refl (a : List Nat) : keyLe a a := by
  rw [keyLe_iff]; exact Or.inr rfl

theorem keyLe_of_keyLt {a b : List Nat} (h : keyLt a b) : keyLe a b := by
  rw [keyLe_iff]; exact Or.inl h

theorem keyLt_ne {a b : List Nat} (h : keyLt a b) : a ≠ b := by
  intro he
  subst he
  unfold keyLt at h
  rw [bytesCmp_self] at h
  exact Ordering.noConfusion h

theorem keyLe_trans {a b c : List Nat} (h1 : keyLe a b) (h2 : keyLe b c) : keyLe a c := by
  rw [keyLe_iff] at *
  rcases h1 with h1 | h1
  · rcases h2 with h2 | h2
    · exact Or.inl (keyLt_trans h1 h2)
    · subst h2; exact Or.inl h1
  · subst h1; exact h2

theorem keyLt_of_keyLt_of_keyLe {a b c : List Nat} (h1 : keyLt a b) (h2 : keyLe b c) :
    keyLt a c := by
  rw [keyLe_iff] at h2
  rcases h2 with h2 | h2
  · exact keyLt_trans h1 h2
  · subst h2; exact h1

theorem keyLt_of_keyLe_of_keyLt {a b c : List Nat} (h1 : keyLe a b) (h2 : keyLt b c) :
    keyLt a c := by
  rw [keyLe_iff] at h1
  rcases h1 with h1 | h1
  · exact keyLt_trans h1 h2
  · subst h1; exact h2

theorem keyLe_of_not_keyLt {a b : List Nat} (h : ¬ keyLt a b) : keyLe b a := by
  unfold keyLt at h
  intro hg
  exact h ((bytesCmp_gt_iff b a).mp hg)

theorem keyLt_of_not_keyLe {a b : List Nat} (h : ¬ keyLe a b) : keyLt b a := by
  have hg : bytesCmp a b = .gt := by
    by_contra hn
    exact h hn
  exact (bytesCmp_gt_iff a b).mp hg

theorem keyLe_antisymm {a b : List Nat} (h1 : keyLe a b) (h2 : keyLe b a) : a = b := by
  rw [keyLe_iff] at h1 h2
  rcases h1 with h1 | h1
  · rcases h2 with h2 | h2
    · exact absurd rfl (keyLt_ne (keyLt_trans h1 h2))
    · exact h2.symm
  · exact h1

/-! ## B-tree nodes and operations

`BTreeNode` (btree.rs lines 51-92) is a tagged struct; a `Leaf` holds
`leaf_entries` (key, record position), an `Internal` node holds
`leftmost_child` plus `internal_entries` (separator key, child).
Nodes live in segment files addressed by `BTreeNodePosition`; the
position indirection is erased here, children are stored directly.
`parent` pointers, which never influence the results of
`find_in_node` / `insert_into_node`, are dropped. -/

/-- `BTreeNode` of btree.rs with node positions erased. -/
inductive BTreeNode where
  | leaf (leaf_entries : List (List Nat × TableRecordPosition))
  | internal (leftmost_child : BTreeNode)
      (internal_entries : List (List Nat × BTreeNode))

/-- The loop of Rust `slice::binary_search_by` (core, slice/mod.rs):
`while size > 1 { let half = size / 2; let mid = base + half;
base = if f(mid) == Greater { base } else { mid }; size -= half; }`. -/
def binarySearchLoop (f : Nat → Ordering) (base size : Nat) : Nat :=
  if size ≤ 1 then base
  else
    binarySearchLoop f (if f (base + size / 2) = .gt then base else base + size / 2)
      (size - size / 2)
termination_by size
decreasing_by simp_wf; omega

/-- Rust `slice::binary_search_by(f).unwrap_or_else(|pos| pos)` on a
slice of the given length: after the loop, `Ok(base)` if `f(base)` is
`Equal`, else the insertion point `Err(base + (f(base) == Less))`;
either way the `insert_pos` of btree.rs line 890. -/
def binarySearchPos (f : Nat → Ordering) (len : Nat) : Nat :=
  if len = 0 then 0
  else
    let base := binarySearchLoop f 0 len
    match f base with
    | .eq => base
    | .lt => base + 1
    | .gt => base

/-- `Vec::insert(i, a)` (every call site here has `i ≤ len`). -/
def listInsertAt {α : Type} : List α → Nat → α → List α
  | l, 0, a => a :: l
  | [], _ + 1, a => [a]
  | x :: l, i + 1, a => x :: listInsertAt l i a

/-- Default entry used for (always in-bounds) `getD` indexing of
leaf entries. -/
def dfltLeafEntry : List Nat × TableRecordPosition := ([], ⟨0, 0⟩)

/-- Default entry for `getD` indexing of internal entries. -/
def dfltInternalEntry : List Nat × BTreeNode := ([], .leaf [])

/-- The leaf arm of `insert_into_node` before the fullness check
(btree.rs lines 888-901): `binary_search_by(|entry|
entry.key.as_str().cmp(&key))`, then `leaf_entries.insert(insert_pos,
BTreeLeafEntry { key, position })`. -/
def leafInsert (es : List (List Nat × TableRecordPosition)) (key : List Nat)
    (position : TableRecordPosition) : List (List Nat × TableRecordPosition) :=
  listInsertAt es
    (binarySearchPos (fun i => bytesCmp (es.getD i dfltLeafEntry).1 key) es.length)
    (key, position)

/-- The child-selection loop of `insert_into_node` / `find_in_node` /
`delete_from_node` on an internal node (btree.rs lines 921-929,
800-807): start from `leftmost_child`, advance past every entry whose
separator is not greater than the key (`if key < entry.key break`). -/
def chooseChild (lm : BTreeNode) (es : List (List Nat × BTreeNode)) (key : List Nat) :
    BTreeNode :=
  match es with
  | [] => lm
  | (sep, c) :: rest => if bytesCmp key sep = .lt then lm else chooseChild c rest key

/-- The `insert_index` computed by the same loop (btree.rs line 928):
the number of entries the loop advanced past. -/
def chooseChildIdx (es : List (List Nat × BTreeNode)) (key : List Nat) : Nat :=
  match es with
  | [] => 0
  | (sep, _) :: rest => if bytesCmp key sep = .lt then 0 else chooseChildIdx rest key + 1

/-- Writing the recursively updated child back at its slot
(`update_node` at the child's unchanged position): the entry keeps its
separator key, its child subtree is replaced. -/
def setChildAt : List (List Nat × BTreeNode) → Nat → BTreeNode → List (List Nat × BTreeNode)
  | [], _, _ => []
  | (sep, _) :: rest, 0, c => (sep, c) :: rest
  | e :: rest, i + 1, c => e :: setChildAt rest i c

/-- `split_leaf_node` (btree.rs lines 966-984): `mid = len / 2`,
`split_key = leaf_entries[mid].key`, the new right node takes
`split_off(mid)`; returns (updated left node, `(split_key, new node)`). -/
def split_leaf_node (es : List (List Nat × TableRecordPosition)) :
    BTreeNode × (List Nat × BTreeNode) :=
  (.leaf (es.take (es.length / 2)),
    ((es.getD (es.length / 2) dfltLeafEntry).1, .leaf (es.drop (es.length / 2))))

/-- `split_internal_node` (btree.rs lines 987-1040): `mid = len / 2`,
`split_key = internal_entries[mid].key`, the new right node takes
`split_off(mid + 1)` and gets `internal_entries[mid].child_position`
(popped off the left node) as its `leftmost_child`; the left node
keeps `internal_entries[..mid]` and its own `leftmost_child`. -/
def split_internal_node (lm : BTreeNode) (es : List (List Nat × BTreeNode)) :
    BTreeNode × (List Nat × BTreeNode) :=
  (.internal lm (es.take (es.length / 2)),
    ((es.getD (es.length / 2) dfltInternalEntry).1,
      .internal (es.getD (es.length / 2) dfltInternalEntry).2 (es.drop (es.length / 2 + 1))))

theorem chooseChild_sizeOf (lm : BTreeNode) (es : List (List Nat × BTreeNode))
    (key : List Nat) : sizeOf (chooseChild lm es key) < 1 + sizeOf lm + sizeOf es := by
  induction es generalizing lm with
  | nil => simp [chooseChild]; omega
  | cons e rest ih =>
    obtain ⟨sep, c⟩ := e
    rw [chooseChild]
    have hr := ih c
    by_cases h : bytesCmp key sep = .lt
    · rw [if_pos h]
      simp only [List.cons.sizeOf_spec, Prod.mk.sizeOf_spec]
      omega
    · rw [if_neg h]
      simp only [List.cons.sizeOf_spec, Prod.mk.sizeOf_spec]
      omega

/-- `insert_into_node` (btree.rs lines 877-964): returns the updated
node in place of the old one and, if that node split, the
`(split_key, new_right_node)` pair handed to the parent.  A leaf
inserts at the binary-search position and splits when
`is_full(order)` (`len >= order - 1`, checked *after* inserting);
an internal node descends into the chosen child, re-attaches the
updated child, inserts a returned split entry at `insert_index`, and
splits itself by the same fullness rule. -/
def insert_into_node (node : BTreeNode) (key : List Nat) (position : TableRecordPosition)
    (order : Nat) : BTreeNode × Option (List Nat × BTreeNode) :=
  match node with
  | .leaf es =>
    let es' := leafInsert es key position
    if order - 1 ≤ es'.length then
      ((split_leaf_node es').1, some (split_leaf_node es').2)
    else (.leaf es', none)
  | .internal lm es =>
    let idx := chooseChildIdx es key
    match insert_into_node (chooseChild lm es key) key position order with
    | (c', sp) =>
      let lm' := if idx = 0 then c' else lm
      let es1 := if idx = 0 then es else setChildAt es (idx - 1) c'
      match sp with
      | none => (.internal lm' es1, none)
      | some (sk, nn) =>
        let es2 := listInsertAt es1 idx (sk, nn)
        if order - 1 ≤ es2.length then
          ((split_internal_node lm' es2).1, some (split_internal_node lm' es2).2)
        else (.internal lm' es2, none)
termination_by sizeOf node
decreasing_by
  simp_wf
  have := chooseChild_sizeOf lm es key
  omega

/-- The leaf arm of `find_in_node` (btree.rs lines 781-789): linear
scan, first entry with `entry.key == key`. -/
def findInLeaf (es : List (List Nat × TableRecordPosition)) (key : List Nat) :
    Option TableRecordPosition :=
  match es with
  | [] => none
  | (k, p) :: rest => if k = key then some p else findInLeaf rest key

/-- `find_in_node` (btree.rs lines 772-813): scan the leaf, or descend
into the child selected by the separator loop. -/
def find_in_node (node : BTreeNode) (key : List Nat) : Option TableRecordPosition :=
  match node with
  | .leaf es => findInLeaf es key
  | .internal lm es => find_in_node (chooseChild lm es key) key
termination_by sizeOf node
decreasing_by
  simp_wf
  have := chooseChild_sizeOf lm es key
  omega

/-- `BTreeIndex::insert` (btree.rs lines 814-874) acting on the root:
an absent root becomes a one-entry leaf; when the root splits, a new
internal root is created with the old root as `leftmost_child` and
one entry `(split_key, new_node)`. -/
def btreeInsert (root : Option BTreeNode) (key : List Nat) (position : TableRecordPosition)
    (order : Nat) : BTreeNode :=
  match root with
  | none => .leaf [(key, position)]
  | some r =>
    match insert_into_node r key position order with
    | (r', none) => r'
    | (r', some (sk, nn)) => .internal r' [(sk, nn)]

/-- `BTreeIndex::find` (btree.rs lines 757-769): `None` without a
root, otherwise `find_in_node` from the root. -/
def btreeFind (root : Option BTreeNode) (key : List Nat) : Option TableRecordPosition :=
  match root with
  | none => none
  | some r => find_in_node r key

/-- A sequence of `BTreeIndex::insert` calls. -/
def btreeInsertMany (root : Option BTreeNode) (ops : List (List Nat × TableRecordPosition))
    (order : Nat) : Option BTreeNode :=
  ops.foldl (fun r op => some (btreeInsert r op.1 op.2 order)) root

mutual

/-- In-order traversal: all leaf entries of the tree, left to right. -/
def inorder : BTreeNode → List (List Nat × TableRecordPosition)
  | .leaf es => es
  | .internal lm es => inorder lm ++ inorderEntries es

/-- In-order traversal of an internal node's entry children. -/
def inorderEntries : List (List Nat × BTreeNode) → List (List Nat × TableRecordPosition)
  | [] => []
  | (_, c) :: rest => inorder c ++ inorderEntries rest

end

/-- In-order traversal from an optional root. -/
def inorderOpt : Option BTreeNode → List (List Nat × TableRecordPosition)
  | none => []
  | some t => inorder t

/-- The record position supplied by the latest insert with the given
key in a sequence of `insert(key, position)` calls. -/
def latestPos (ops : List (List Nat × TableRecordPosition)) (key : List Nat) :
    Option TableRecordPosition :=
  ops.foldl (fun acc op => if op.1 = key then some op.2 else acc) none

/-- Number of inserts carrying the given key. -/
def countKey (ops : List (List Nat × TableRecordPosition)) (key : List Nat) : Nat :=
  (ops.filter (fun op => decide (op.1 = key))).length

/-- The keys of an entry list, in order. -/
def entryKeys (es : List (List Nat × TableRecordPosition)) : List (List Nat) :=
  es.map Prod.fst

/-- Weakly sorted under the Rust byte-wise key order. -/
def KeysSorted (ks : List (List Nat)) : Prop := List.Pairwise keyLe ks

/-! ## List helper lemmas -/

theorem listInsertAt_length {α : Type} : ∀ (l : List α) (i : Nat) (a : α),
    (listInsertAt l i a).length = l.length + 1 := by
  intro l
  induction l with
  | nil => intro i a; cases i <;> rfl
  | cons x rest ih =>
    intro i a
    cases i with
    | zero => rfl
    | succ i => simp [listInsertAt, ih]

theorem listInsertAt_take_drop {α : Type} : ∀ (l : List α) (i : Nat) (a : α), i ≤ l.length →
    listInsertAt l i a = l.take i ++ a :: l.drop i := by
  intro l
  induction l with
  | nil =>
    intro i a hi
    have : i = 0 := by simpa using hi
    subst this
    rfl
  | cons x rest ih =>
    intro i a hi
    cases i with
    | zero => rfl
    | succ i =>
      simp only [listInsertAt, List.take_succ_cons, List.drop_succ_cons, List.cons_append,
        List.cons.injEq, true_and]
      exact ih i a (by simpa using hi)

theorem mem_take_idx {α : Type} (l : List α) (i : Nat) (d : α) {a : α} (h : a ∈ l.take i) :
    ∃ j, j < i ∧ j < l.length ∧ l.getD j d = a := by
  obtain ⟨j, hj, he⟩ := List.mem_iff_getElem.mp h
  have hlen : j < i ∧ j < l.length := by
    have := hj
    simp [List.length_take] at this
    omega
  refine ⟨j, hlen.1, hlen.2, ?_⟩
  rw [List.getD_eq_getElem l d hlen.2, ← he, List.getElem_take]

theorem mem_drop_idx {α : Type} (l : List α) (i : Nat) (d : α) {a : α} (h : a ∈ l.drop i) :
    ∃ j, i ≤ j ∧ j < l.length ∧ l.getD j d = a := by
  obtain ⟨j, hj, he⟩ := List.mem_iff_getElem.mp h
  have hlen : i + j < l.length := by
    have := hj
    simp [List.length_drop] at this
    omega
  refine ⟨i + j, by omega, hlen, ?_⟩
  rw [List.getD_eq_getElem l d hlen, ← he, List.getElem_drop]

theorem pairwise_getD_keyLe (ks : List (List Nat)) (h : List.Pairwise keyLe ks) (i j : Nat)
    (hij : i ≤ j) (hj : j < ks.length) (d : List Nat) : keyLe (ks.getD i d) (ks.getD j d) := by
  rcases Nat.lt_or_ge i j with hlt | hge
  · rw [List.getD_eq_getElem ks d (by omega), List.getD_eq_getElem ks d hj]
    exact List.pairwise_iff_getElem.mp h i j (by omega) hj hlt
  · have : i = j := by omega
    subst this
    exact keyLe_refl _

theorem entryKeys_length (es : List (List Nat × TableRecordPosition)) :
    (entryKeys es).length = es.length := by
  simp [entryKeys]

theorem entryKeys_getD (es : List (List Nat × TableRecordPosition)) (j : Nat)
    (hj : j < es.length) : (entryKeys es).getD j [] = (es.getD j dfltLeafEntry).1 := by
  rw [List.getD_eq_getElem _ _ (by simpa [entryKeys_length] using hj),
    List.getD_eq_getElem es dfltLeafEntry hj]
  simp [entryKeys]

/-! ## Specification of the Rust binary search -/

theorem binarySearchLoop_spec (f : Nat → Ordering) (getK : Nat → List Nat) (key : List Nat)
    (len : Nat) (hf : ∀ i, f i = bytesCmp (getK i) key)
    (hmono : ∀ i j, i ≤ j → j < len → keyLe (getK i) (getK j)) :
    ∀ size base, 1 ≤ size → base + size ≤ len →
      (base = 0 ∨ keyLe (getK base) key) →
      (base + size = len ∨ keyLe key (getK (base + size))) →
      binarySearchLoop f base size + 1 ≤ len ∧
      (binarySearchLoop f base size = 0 ∨ keyLe (getK (binarySearchLoop f base size)) key) ∧
      (binarySearchLoop f base size + 1 = len ∨
        keyLe key (getK (binarySearchLoop f base size + 1))) := by
  intro size
  induction size using Nat.strong_induction_on with
  | _ size ih =>
    intro base h1 h2 hL hU
    rw [binarySearchLoop.eq_def]
    by_cases hs : size ≤ 1
    · rw [if_pos hs]
      have hsz : size = 1 := by omega
      subst hsz
      exact ⟨by omega, hL, hU⟩
    · rw [if_neg hs, hf (base + size / 2)]
      by_cases hg : bytesCmp (getK (base + size / 2)) key = .gt
      · rw [if_pos hg]
        apply ih (size - size / 2) (by omega) base (by omega) (by omega) hL
        by_cases he : base + (size - size / 2) = len
        · exact Or.inl he
        · refine Or.inr (keyLe_of_keyLt (keyLt_of_keyLt_of_keyLe
            ((bytesCmp_gt_iff _ _).mp hg) (hmono (base + size / 2) (base + (size - size / 2))
              (by omega) (by omega))))
      · rw [if_neg hg]
        apply ih (size - size / 2) (by omega) (base + size / 2) (by omega) (by omega)
          (Or.inr hg)
        have harith : base + size / 2 + (size - size / 2) = base + size := by omega
        rw [harith]
        exact hU

theorem binarySearchPos_spec (f : Nat → Ordering) (getK : Nat → List Nat) (key : List Nat)
    (len : Nat) (hf : ∀ i, f i = bytesCmp (getK i) key)
    (hmono : ∀ i j, i ≤ j → j < len → keyLe (getK i) (getK j)) :
    ∀ ip, binarySearchPos f len = ip →
      ip ≤ len ∧
      (∀ j, j < ip → keyLe (getK j) key) ∧
      (∀ j, ip ≤ j → j < len → keyLe key (getK j)) ∧
      ((ip < len ∧ getK ip = key) ∨ ip = 0 ∨ keyLt (getK (ip - 1)) key) := by
  intro ip hip
  by_cases h0 : len = 0
  · simp only [binarySearchPos, if_pos h0] at hip
    subst hip
    exact ⟨by omega, by omega, by omega, Or.inr (Or.inl rfl)⟩
  · simp only [binarySearchPos, if_neg h0] at hip
    rw [hf (binarySearchLoop f 0 len)] at hip
    obtain ⟨hb1, hb2, hb3⟩ := binarySearchLoop_spec f getK key len hf hmono len 0
      (by omega) (by omega) (Or.inl rfl) (Or.inl (by omega))
    cases hc : bytesCmp (getK (binarySearchLoop f 0 len)) key with
    | eq =>
      rw [hc] at hip
      simp only [] at hip
      subst hip
      have hkeq : getK (binarySearchLoop f 0 len) = key := (bytesCmp_eq_iff _ _).mp hc
      refine ⟨by omega, ?_, ?_, Or.inl ⟨by omega, hkeq⟩⟩
      · intro j hj
        rw [← hkeq]
        exact hmono j _ (by omega) (by omega)
      · intro j hj1 hj2
        rw [← hkeq]
        exact hmono _ j hj1 hj2
    | lt =>
      rw [hc] at hip
      simp only [] at hip
      subst hip
      refine ⟨hb1, ?_, ?_, Or.inr (Or.inr (by simpa using hc))⟩
      · intro j hj
        exact keyLe_of_keyLt (keyLt_of_keyLe_of_keyLt
          (hmono j _ (by omega) (by omega)) hc)
      · intro j hj1 hj2
        rcases hb3 with he | hle
        · omega
        · exact keyLe_trans hle (hmono _ j (by omega) hj2)
    | gt =>
      rw [hc] at hip
      simp only [] at hip
      subst hip
      have hb0 : binarySearchLoop f 0 len = 0 := by
        rcases hb2 with h | h
        · exact h
        · exact absurd hc h
      rw [hb0] at hc ⊢
      refine ⟨by omega, by omega, ?_, Or.inr (Or.inl rfl)⟩
      intro j hj1 hj2
      exact keyLe_of_keyLt (keyLt_of_keyLt_of_keyLe ((bytesCmp_gt_iff _ _).mp hc)
        (hmono 0 j (by omega) hj2))

/-! ## Leaf-level lemmas -/

theorem leafInsert_length (es : List (List Nat × TableRecordPosition)) (key : List Nat)
    (position : TableRecordPosition) :
    (leafInsert es key position).length = es.length + 1 := by
  rw [leafInsert, listInsertAt_length]

theorem listInsertAt_mem {α : Type} : ∀ (l : List α) (i : Nat) (a : α) (e : α),
    e ∈ listInsertAt l i a → e ∈ l ∨ e = a := by
  intro l
  induction l with
  | nil =>
    intro i a e he
    cases i <;> simpa [listInsertAt] using he
  | cons x rest ih =>
    intro i a e he
    cases i with
    | zero =>
      rcases List.mem_cons.mp he with h | h
      · exact Or.inr h
      · exact Or.inl h
    | succ i =>
      rcases List.mem_cons.mp he with h | h
      · exact Or.inl (by simp [h])
      · rcases ih i a e h with h' | h'
        · exact Or.inl (List.mem_cons_of_mem x h')
        · exact Or.inr h'

/-- The monotone index-access function of a sorted leaf. -/
theorem leaf_getD_mono (es : List (List Nat × TableRecordPosition))
    (h : List.Pairwise keyLe (entryKeys es)) :
    ∀ i j, i ≤ j → j < es.length →
      keyLe ((es.getD i dfltLeafEntry).1) ((es.getD j dfltLeafEntry).1) := by
  intro i j hij hj
  rw [← entryKeys_getD es i (by omega), ← entryKeys_getD es j hj]
  exact pairwise_getD_keyLe _ h i j hij (by rw [entryKeys_length]; omega) []

theorem leafInsert_sorted (es : List (List Nat × TableRecordPosition)) (key : List Nat)
    (position : TableRecordPosition) (h : List.Pairwise keyLe (entryKeys es)) :
    List.Pairwise keyLe (entryKeys (leafInsert es key position)) := by
  obtain ⟨h1, h2, h3, _⟩ := binarySearchPos_spec
    (fun i => bytesCmp (es.getD i dfltLeafEntry).1 key)
    (fun i => (es.getD i dfltLeafEntry).1) key es.length (fun _ => rfl)
    (leaf_getD_mono es h) _ rfl
  rw [leafInsert, listInsertAt_take_drop es _ (key, position) h1]
  have hkeys : entryKeys (es.take (binarySearchPos
        (fun i => bytesCmp (es.getD i dfltLeafEntry).1 key) es.length) ++
        (key, position) :: es.drop (binarySearchPos
        (fun i => bytesCmp (es.getD i dfltLeafEntry).1 key) es.length))
      = (entryKeys es).take (binarySearchPos
          (fun i => bytesCmp (es.getD i dfltLeafEntry).1 key) es.length) ++
        key :: (entryKeys es).drop (binarySearchPos
          (fun i => bytesCmp (es.getD i dfltLeafEntry).1 key) es.length) := by
    simp [entryKeys, List.map_take, List.map_drop]
  rw [hkeys, List.pairwise_append]
  refine ⟨h.sublist (List.take_sublist _ _), ?_, ?_⟩
  · rw [List.pairwise_cons]
    refine ⟨?_, h.sublist (List.drop_sublist _ _)⟩
    intro b hb
    obtain ⟨j, hj1, hj2, hj3⟩ := mem_drop_idx (entryKeys es) _ [] hb
    rw [entryKeys_length] at hj2
    rw [← hj3, entryKeys_getD es j hj2]
    exact h3 j hj1 hj2
  · intro a ha b hb
    obtain ⟨j, hj1, hj2, hj3⟩ := mem_take_idx (entryKeys es) _ [] ha
    rw [entryKeys_length] at hj2
    have ha' : keyLe a key := by
      rw [← hj3, entryKeys_getD es j hj2]
      exact h2 j hj1
    rcases List.mem_cons.mp hb with rfl | hb'
    · exact ha'
    · obtain ⟨j', hj1', hj2', hj3'⟩ := mem_drop_idx (entryKeys es) _ [] hb'
      rw [entryKeys_length] at hj2'
      refine keyLe_trans ha' ?_
      rw [← hj3', entryKeys_getD es j' hj2']
      exact h3 j' hj1' hj2'

theorem leafInsert_mem (es : List (List Nat × TableRecordPosition)) (key : List Nat)
    (position : TableRecordPosition) (e : List Nat × TableRecordPosition)
    (he : e ∈ leafInsert es key position) : e ∈ es ∨ e = (key, position) :=
  listInsertAt_mem es _ (key, position) e he

/-! ## First-match search and occurrence counting in a leaf -/

theorem findInLeaf_append (l1 l2 : List (List Nat × TableRecordPosition)) (key : List Nat) :
    findInLeaf (l1 ++ l2) key = (findInLeaf l1 key).or (findInLeaf l2 key) := by
  induction l1 with
  | nil => simp [findInLeaf]
  | cons e rest ih =>
    obtain ⟨k, p⟩ := e
    by_cases h : k = key <;> simp [findInLeaf, h, ih]

theorem findInLeaf_eq_none (l : List (List Nat × TableRecordPosition)) (key : List Nat)
    (h : ∀ e ∈ l, e.1 ≠ key) : findInLeaf l key = none := by
  induction l with
  | nil => rfl
  | cons e rest ih =>
    obtain ⟨k, p⟩ := e
    have hk : k ≠ key := h (k, p) (List.mem_cons_self _ _)
    rw [findInLeaf, if_neg hk]
    exact ih fun e he => h e (List.mem_cons_of_mem _ he)

/-- Number of entries of a leaf carrying the given key. -/
def countEntries (es : List (List Nat × TableRecordPosition)) (key : List Nat) : Nat :=
  (es.filter (fun e => decide (e.1 = key))).length

theorem countEntries_zero (es : List (List Nat × TableRecordPosition)) (key : List Nat)
    (h : countEntries es key = 0) : ∀ e ∈ es, e.1 ≠ key := by
  intro e he
  have := List.filter_eq_nil_iff.mp (List.length_eq_zero.mp h) e he
  simpa using this

theorem countEntries_cons (k : List Nat) (p : TableRecordPosition)
    (rest : List (List Nat × TableRecordPosition)) (key : List Nat) :
    countEntries ((k, p) :: rest) key
      = countEntries rest key + if k = key then 1 else 0 := by
  by_cases h : k = key <;> simp [countEntries, List.filter_cons, h]

theorem countEntries_append (l1 l2 : List (List Nat × TableRecordPosition)) (key : List Nat) :
    countEntries (l1 ++ l2) key = countEntries l1 key + countEntries l2 key := by
  simp [countEntries, List.filter_append]

theorem countEntries_one : ∀ (es : List (List Nat × TableRecordPosition)) (key : List Nat),
    countEntries es key = 1 →
    ∃ j0, j0 < es.length ∧ (es.getD j0 dfltLeafEntry).1 = key ∧
      ∀ j, j < es.length → (es.getD j dfltLeafEntry).1 = key → j = j0 := by
  intro es
  induction es with
  | nil => intro key h; simp [countEntries] at h
  | cons e rest ih =>
    intro key h
    obtain ⟨k, p⟩ := e
    by_cases hk : k = key
    · have hrest : countEntries rest key = 0 := by
        rw [countEntries_cons, if_pos hk] at h
        omega
      refine ⟨0, by simp, by simpa using hk, ?_⟩
      intro j hj hkey
      cases j with
      | zero => rfl
      | succ j =>
        exfalso
        have hmem : rest.getD j dfltLeafEntry ∈ rest := by
          rw [List.getD_eq_getElem rest dfltLeafEntry (by simpa using hj)]
          exact List.getElem_mem _
        exact countEntries_zero rest key hrest _ hmem (by simpa using hkey)
    · have hrest : countEntries rest key = 1 := by
        rw [countEntries_cons, if_neg hk] at h
        omega
      obtain ⟨j0, hj0, hj0k, huniq⟩ := ih key hrest
      refine ⟨j0 + 1, by simpa using hj0, by simpa using hj0k, ?_⟩
      intro j hj hkey
      cases j with
      | zero => exact absurd (by simpa using hkey) hk
      | succ j => simpa using huniq j (by simpa using hj) (by simpa using hkey)

theorem countEntries_insert (es : List (List Nat × TableRecordPosition)) (ip : Nat)
    (k0 : List Nat) (p0 : TableRecordPosition) (k : List Nat) :
    countEntries (es.take ip ++ (k0, p0) :: es.drop ip) k
      = countEntries es k + if k0 = k then 1 else 0 := by
  rw [countEntries_append, countEntries_cons]
  conv_rhs => rw [← List.take_append_drop ip es, countEntries_append]
  omega

/-! ## Fold of leaf inserts (no-split insert sequences) -/

/-- The leaf entry list produced by a sequence of splitless inserts
into an initially empty leaf. -/
def leafFold (ops : List (List Nat × TableRecordPosition)) :
    List (List Nat × TableRecordPosition) :=
  ops.foldl (fun es op => leafInsert es op.1 op.2) []

theorem leafFold_append (ops : List (List Nat × TableRecordPosition))
    (k0 : List Nat) (p0 : TableRecordPosition) :
    leafFold (ops ++ [(k0, p0)]) = leafInsert (leafFold ops) k0 p0 := by
  simp [leafFold, List.foldl_append]

theorem countKey_append (ops : List (List Nat × TableRecordPosition))
    (k0 : List Nat) (p0 : TableRecordPosition) (k : List Nat) :
    countKey (ops ++ [(k0, p0)]) k = countKey ops k + if k0 = k then 1 else 0 := by
  by_cases h : k0 = k <;> simp [countKey, List.filter_append, List.filter_cons, h]

theorem latestPos_append (ops : List (List Nat × TableRecordPosition))
    (k0 : List Nat) (p0 : TableRecordPosition) (k : List Nat) :
    latestPos (ops ++ [(k0, p0)]) k = if k0 = k then some p0 else latestPos ops k := by
  by_cases h : k0 = k <;> simp [latestPos, List.foldl_append, h]

/-- Invariant of a splitless insert sequence into one leaf: the leaf
stays key-sorted, it holds one entry per insert, and — as long as a
key was inserted at most twice — the first (leftmost) entry with that
key is the one supplied by the latest insert. -/
theorem leafFold_inv (ops : List (List Nat × TableRecordPosition)) :
    List.Pairwise keyLe (entryKeys (leafFold ops)) ∧
    (∀ k, countEntries (leafFold ops) k = countKey ops k) ∧
    (∀ k, countKey ops k ≤ 2 → findInLeaf (leafFold ops) k = latestPos ops k) := by
  induction ops using List.reverseRecOn with
  | nil =>
    refine ⟨by simp [leafFold, entryKeys], ?_, ?_⟩
    · intro k
      simp [leafFold, countEntries, countKey]
    · intro k _
      simp [leafFold, findInLeaf, latestPos]
  | append_singleton ops op ih =>
    obtain ⟨k0, p0⟩ := op
    obtain ⟨hsort, hcnt, hfind⟩ := ih
    set es := leafFold ops with hes
    obtain ⟨h1, h2, h3, h4⟩ := binarySearchPos_spec
      (fun i => bytesCmp (es.getD i dfltLeafEntry).1 k0)
      (fun i => (es.getD i dfltLeafEntry).1) k0 es.length (fun _ => rfl)
      (leaf_getD_mono es hsort) _ rfl
    set ip := binarySearchPos (fun i => bytesCmp (es.getD i dfltLeafEntry).1 k0) es.length
      with hipdef
    have hes' : leafFold (ops ++ [(k0, p0)]) = es.take ip ++ (k0, p0) :: es.drop ip := by
      rw [leafFold_append, leafInsert, ← hes, ← hipdef,
        listInsertAt_take_drop es ip (k0, p0) h1]
    refine ⟨?_, ?_, ?_⟩
    · rw [leafFold_append]
      exact leafInsert_sorted es k0 p0 hsort
    · intro k
      rw [hes', countEntries_insert, hcnt k, countKey_append]
    · intro k hk2
      rw [latestPos_append]
      by_cases hkk : k0 = k
      · subst hkk
        rw [if_pos rfl]
        have hc1 : countKey ops k0 ≤ 1 := by
          rw [countKey_append, if_pos rfl] at hk2
          omega
        rw [hes', findInLeaf_append]
        have hnone : findInLeaf (es.take ip) k0 = none := by
          apply findInLeaf_eq_none
          intro e he
          obtain ⟨j, hj1, hj2, hj3⟩ := mem_take_idx es ip dfltLeafEntry he
          rw [← hj3]
          have hcc := hcnt k0
          rcases (show countEntries es k0 = 0 ∨ countEntries es k0 = 1 by omega) with hc | hc
          · have hmem : es.getD j dfltLeafEntry ∈ es := by
              rw [List.getD_eq_getElem es dfltLeafEntry hj2]
              exact List.getElem_mem _
            exact countEntries_zero es k0 hc _ hmem
          · obtain ⟨j0, hj0len, hj0key, huniq⟩ := countEntries_one es k0 hc
            rcases h4 with ⟨hiplen, hipkey⟩ | hip0 | hlt
            · have hipj0 : ip = j0 := huniq ip hiplen hipkey
              intro heq
              have : j = j0 := huniq j hj2 heq
              omega
            · omega
            · intro heq
              have hj4 : j ≤ ip - 1 := by omega
              have hip1len : ip - 1 < es.length := by omega
              exact keyLt_ne
                (keyLt_of_keyLe_of_keyLt (leaf_getD_mono es hsort j (ip - 1) hj4 hip1len) hlt)
                heq
        rw [hnone]
        simp [findInLeaf]
      · rw [if_neg hkk]
        have hc2 : countKey ops k ≤ 2 := by
          rw [countKey_append, if_neg hkk] at hk2
          omega
        rw [hes', findInLeaf_append]
        have hcons : findInLeaf ((k0, p0) :: es.drop ip) k = findInLeaf (es.drop ip) k := by
          rw [findInLeaf, if_neg hkk]
        rw [hcons, ← hfind k hc2]
        conv_rhs => rw [← List.take_append_drop ip es, findInLeaf_append]

/-! ## Splitless sequences stay in a single leaf -/

theorem btreeInsertMany_leaf (order : Nat) :
    ∀ (ops : List (List Nat × TableRecordPosition))
      (es : List (List Nat × TableRecordPosition)),
      es.length + ops.length < order - 1 →
      btreeInsertMany (some (.leaf es)) ops order
        = some (.leaf (ops.foldl (fun es op => leafInsert es op.1 op.2) es)) := by
  intro ops
  induction ops with
  | nil =>
    intro es h
    rfl
  | cons op rest ih =>
    obtain ⟨k, p⟩ := op
    intro es h
    have hcond : ¬ (order - 1 ≤ (leafInsert es k p).length) := by
      rw [leafInsert_length]
      simp only [List.length_cons] at h
      omega
    have hins : insert_into_node (.leaf es) k p order = (.leaf (leafInsert es k p), none) := by
      rw [insert_into_node.eq_def]
      simp only []
      rw [if_neg hcond]
    have hstep : btreeInsert (some (.leaf es)) k p order = .leaf (leafInsert es k p) := by
      simp only [btreeInsert, hins]
    calc btreeInsertMany (some (.leaf es)) ((k, p) :: rest) order
        = btreeInsertMany (some (btreeInsert (some (.leaf es)) k p order)) rest order := rfl
      _ = btreeInsertMany (some (.leaf (leafInsert es k p))) rest order := by rw [hstep]
      _ = some (.leaf (rest.foldl (fun es op => leafInsert es op.1 op.2) (leafInsert es k p))) := by
          apply ih
          rw [leafInsert_length]
          simp only [List.length_cons] at h
          omega
      _ = some (.leaf (((k, p) :: rest).foldl (fun es op => leafInsert es op.1 op.2) es)) := rfl

/-- Part (1) of the amended claim: starting from an empty index, at
most 62 inserts (order 64: a leaf splits when it reaches 63 entries,
so 62 inserts provoke no split), at most two of which carry the
queried key, make `find` return the position of the latest insert
with that key. -/
theorem btreeFind_latest (ops : List (List Nat × TableRecordPosition)) (key : List Nat)
    (hlen : ops.length ≤ 62) (hdup : countKey ops key ≤ 2) :
    btreeFind (btreeInsertMany none ops 64) key = latestPos ops key := by
  cases ops with
  | nil => rfl
  | cons op rest =>
    obtain ⟨k0, p0⟩ := op
    have h1 : btreeInsertMany none ((k0, p0) :: rest) 64
        = btreeInsertMany (some (.leaf [(k0, p0)])) rest 64 := rfl
    have h2 : btreeInsertMany (some (.leaf [(k0, p0)])) rest 64
        = some (.leaf (rest.foldl (fun es op => leafInsert es op.1 op.2) [(k0, p0)])) := by
      apply btreeInsertMany_leaf
      simp only [List.length_cons] at hlen
      simp only [List.length_singleton]
      omega
    have h4 : rest.foldl (fun es op => leafInsert es op.1 op.2) [(k0, p0)]
        = leafFold ((k0, p0) :: rest) := rfl
    have h5 : btreeFind (some (.leaf (leafFold ((k0, p0) :: rest)))) key
        = findInLeaf (leafFold ((k0, p0) :: rest)) key := by
      simp only [btreeFind]
      rw [find_in_node.eq_def]
    rw [h1, h2, h4, h5]
    exact (leafFold_inv ((k0, p0) :: rest)).2.2 key hdup

/-! ## Order invariant across splits -/

/-- `lo ≤ k ≤ hi` in the byte-wise key order, `none` = unbounded. -/
def inBounds (lo hi : Option (List Nat)) (k : List Nat) : Prop :=
  (∀ l, lo = some l → keyLe l k) ∧ (∀ h, hi = some h → keyLe k h)

mutual

/-- Key-range invariant of a subtree: leaf keys are sorted and lie in
`[lo, hi]`; an internal node's children partition its range at the
separators. -/
inductive Bnd : Option (List Nat) → Option (List Nat) → BTreeNode → Prop where
  | leaf {lo hi : Option (List Nat)} {es : List (List Nat × TableRecordPosition)} :
      List.Pairwise keyLe (entryKeys es) → (∀ e ∈ es, inBounds lo hi e.1) →
      Bnd lo hi (.leaf es)
  | internal {lo hi : Option (List Nat)} {lm : BTreeNode}
      {es : List (List Nat × BTreeNode)} :
      BndChildren lo hi lm es → Bnd lo hi (.internal lm es)

/-- Invariant of `leftmost_child` plus an internal entry list, the
running lower bound advanced past each separator. -/
inductive BndChildren : Option (List Nat) → Option (List Nat) → BTreeNode →
    List (List Nat × BTreeNode) → Prop where
  | nil {lo hi : Option (List Nat)} {lm : BTreeNode} :
      Bnd lo hi lm → BndChildren lo hi lm []
  | cons {lo hi : Option (List Nat)} {lm : BTreeNode} {sep : List Nat} {c : BTreeNode}
      {rest : List (List Nat × BTreeNode)} :
      Bnd lo (some sep) lm → inBounds lo hi sep → BndChildren (some sep) hi c rest →
      BndChildren lo hi lm ((sep, c) :: rest)

end

/-- Splitting a bounded internal entry list at index `mid`: the prefix
is bounded by the `mid` separator, the `mid` child with the suffix is
bounded below by it. -/
theorem BndChildren_split : ∀ (es : List (List Nat × BTreeNode)) (lm : BTreeNode)
    (lo hi : Option (List Nat)) (mid : Nat),
    BndChildren lo hi lm es → mid < es.length →
    BndChildren lo (some ((es.getD mid dfltInternalEntry).1)) lm (es.take mid) ∧
    inBounds lo hi ((es.getD mid dfltInternalEntry).1) ∧
    BndChildren (some ((es.getD mid dfltInternalEntry).1)) hi
      ((es.getD mid dfltInternalEntry).2) (es.drop (mid + 1)) := by
  intro es
  induction es with
  | nil =>
    intro lm lo hi mid h hmid
    simp at hmid
  | cons e rest ih =>
    obtain ⟨sep, c⟩ := e
    intro lm lo hi mid h hmid
    cases h with
    | cons hlm hsep hrest =>
      cases mid with
      | zero =>
        simp only [List.getD_cons_zero, List.take_zero, List.drop_succ_cons, List.drop_zero]
        exact ⟨.nil hlm, hsep, hrest⟩
      | succ m =>
        have hmid' : m < rest.length := by simpa using hmid
        obtain ⟨ia, ib, ic⟩ := ih c (some sep) hi m hrest hmid'
        simp only [List.getD_cons_succ, List.take_succ_cons, List.drop_succ_cons]
        refine ⟨?_, ?_, ic⟩
        · refine BndChildren.cons hlm ?_ ia
          refine ⟨hsep.1, ?_⟩
          intro h' hh'
          cases hh'
          exact ib.1 sep rfl
        · refine ⟨?_, ib.2⟩
          intro l hl
          exact keyLe_trans (hsep.1 l hl) (ib.1 sep rfl)

/-- Descending into the chosen child, re-attaching its updated version
and, for a child split, inserting the returned separator entry at
`insert_index`, preserves the entry-list invariant. -/
theorem descend_update (key : List Nat) :
    ∀ (es : List (List Nat × BTreeNode)) (lm : BTreeNode) (lo hi : Option (List Nat))
      (c' : BTreeNode) (sp : Option (List Nat × BTreeNode)),
      BndChildren lo hi lm es → inBounds lo hi key →
      (∀ lo' hi', Bnd lo' hi' (chooseChild lm es key) → inBounds lo' hi' key →
        (sp = none → Bnd lo' hi' c') ∧
        (∀ sk nn, sp = some (sk, nn) →
          Bnd lo' (some sk) c' ∧ inBounds lo' hi' sk ∧ Bnd (some sk) hi' nn)) →
      (sp = none →
        BndChildren lo hi (if chooseChildIdx es key = 0 then c' else lm)
          (if chooseChildIdx es key = 0 then es
            else setChildAt es (chooseChildIdx es key - 1) c')) ∧
      (∀ sk nn, sp = some (sk, nn) →
        BndChildren lo hi (if chooseChildIdx es key = 0 then c' else lm)
          (listInsertAt (if chooseChildIdx es key = 0 then es
            else setChildAt es (chooseChildIdx es key - 1) c')
            (chooseChildIdx es key) (sk, nn))) := by
  intro es
  induction es with
  | nil =>
    intro lm lo hi c' sp h hkey hrec
    have hlm : Bnd lo hi lm := by cases h with | nil h0 => exact h0
    have hidx : chooseChildIdx ([] : List (List Nat × BTreeNode)) key = 0 := rfl
    obtain ⟨r1, r2⟩ := hrec lo hi hlm hkey
    refine ⟨fun hsp => ?_, fun sk nn hsp => ?_⟩
    · rw [if_pos hidx, if_pos hidx]
      exact .nil (r1 hsp)
    · rw [if_pos hidx, if_pos hidx, hidx]
      obtain ⟨ha, hb, hc⟩ := r2 sk nn hsp
      have hli : listInsertAt ([] : List (List Nat × BTreeNode)) 0 (sk, nn) = [(sk, nn)] := rfl
      rw [hli]
      exact .cons ha hb (.nil hc)
  | cons e rest ih =>
    obtain ⟨sep, c⟩ := e
    intro lm lo hi c' sp h hkey hrec
    cases h with
    | cons hlm hsep hrest =>
      by_cases hlt : bytesCmp key sep = .lt
      · have hidx : chooseChildIdx ((sep, c) :: rest) key = 0 := by
          simp [chooseChildIdx, hlt]
        have hcc : chooseChild lm ((sep, c) :: rest) key = lm := by
          simp [chooseChild, hlt]
        rw [hcc] at hrec
        have hkey' : inBounds lo (some sep) key := by
          refine ⟨hkey.1, ?_⟩
          intro s hs
          cases hs
          exact keyLe_of_keyLt hlt
        obtain ⟨r1, r2⟩ := hrec lo (some sep) hlm hkey'
        refine ⟨fun hsp => ?_, fun sk nn hsp => ?_⟩
        · rw [if_pos hidx, if_pos hidx]
          exact .cons (r1 hsp) hsep hrest
        · rw [if_pos hidx, if_pos hidx, hidx]
          obtain ⟨ha, hb, hc⟩ := r2 sk nn hsp
          have hli : listInsertAt ((sep, c) :: rest) 0 (sk, nn)
              = (sk, nn) :: (sep, c) :: rest := rfl
          rw [hli]
          refine .cons ha ?_ (.cons hc ?_ hrest)
          · exact ⟨hb.1, fun h' hh' => keyLe_trans (hb.2 sep rfl) (hsep.2 h' hh')⟩
          · refine ⟨?_, hsep.2⟩
            intro l hl
            cases hl
            exact hb.2 sep rfl
      · have hidx : chooseChildIdx ((sep, c) :: rest) key = chooseChildIdx rest key + 1 := by
          simp [chooseChildIdx, hlt]
        have hcc : chooseChild lm ((sep, c) :: rest) key = chooseChild c rest key := by
          simp [chooseChild, hlt]
        rw [hcc] at hrec
        have hkey' : inBounds (some sep) hi key := by
          refine ⟨?_, hkey.2⟩
          intro l hl
          cases hl
          exact keyLe_of_not_keyLt hlt
        obtain ⟨ihn, ihs⟩ := ih c (some sep) hi c' sp hrest hkey' hrec
        have hne : chooseChildIdx ((sep, c) :: rest) key ≠ 0 := by
          rw [hidx]
          omega
        refine ⟨fun hsp => ?_, fun sk nn hsp => ?_⟩
        · rw [if_neg hne, if_neg hne, hidx, Nat.add_sub_cancel]
          have hthis := ihn hsp
          cases hjz : chooseChildIdx rest key with
          | zero =>
            rw [hjz] at hthis
            rw [if_pos rfl, if_pos rfl] at hthis
            have hsc : setChildAt ((sep, c) :: rest) 0 c' = (sep, c') :: rest := rfl
            rw [hsc]
            exact .cons hlm hsep hthis
          | succ j' =>
            rw [hjz] at hthis
            rw [if_neg (by omega), if_neg (by omega), Nat.add_sub_cancel] at hthis
            have hsc : setChildAt ((sep, c) :: rest) (j' + 1) c'
                = (sep, c) :: setChildAt rest j' c' := rfl
            rw [hsc]
            exact .cons hlm hsep hthis
        · rw [if_neg hne, if_neg hne, hidx, Nat.add_sub_cancel]
          have hthis := ihs sk nn hsp
          cases hjz : chooseChildIdx rest key with
          | zero =>
            rw [hjz] at hthis
            rw [if_pos rfl, if_pos rfl] at hthis
            have hsc : setChildAt ((sep, c) :: rest) 0 c' = (sep, c') :: rest := rfl
            rw [hsc]
            have hli : listInsertAt ((sep, c') :: rest) (0 + 1) (sk, nn)
                = (sep, c') :: listInsertAt rest 0 (sk, nn) := rfl
            rw [hli]
            exact .cons hlm hsep hthis
          | succ j' =>
            rw [hjz] at hthis
            rw [if_neg (by omega), if_neg (by omega), Nat.add_sub_cancel] at hthis
            have hsc : setChildAt ((sep, c) :: rest) (j' + 1) c'
                = (sep, c) :: setChildAt rest j' c' := rfl
            rw [hsc]
            have hli : listInsertAt ((sep, c) :: setChildAt rest j' c') (j' + 1 + 1) (sk, nn)
                = (sep, c) :: listInsertAt (setChildAt rest j' c') (j' + 1) (sk, nn) := rfl
            rw [hli]
            exact .cons hlm hsep hthis

/-- `insert_into_node` preserves the key-range invariant: an
un-split result node keeps the range; a split yields two nodes
partitioned by the returned split key, which lies in the range. -/
theorem insert_into_node_Bnd : ∀ (n : Nat) (t : BTreeNode), sizeOf t ≤ n →
    ∀ (key : List Nat) (position : TableRecordPosition) (order : Nat)
      (lo hi : Option (List Nat)),
      Bnd lo hi t → inBounds lo hi key →
      (∀ t', insert_into_node t key position order = (t', none) → Bnd lo hi t') ∧
      (∀ t' sk nn, insert_into_node t key position order = (t', some (sk, nn)) →
        Bnd lo (some sk) t' ∧ inBounds lo hi sk ∧ Bnd (some sk) hi nn) := by
  intro n
  induction n with
  | zero =>
    intro t hsize
    exfalso
    cases t <;> simp at hsize
  | succ n ih =>
    intro t hsize key position order lo hi hb hkey
    cases t with
    | leaf es =>
      have hsort : List.Pairwise keyLe (entryKeys es) := by
        cases hb with | leaf hs hbd => exact hs
      have hbd : ∀ e ∈ es, inBounds lo hi e.1 := by
        cases hb with | leaf hs hbd => exact hbd
      set es' := leafInsert es key position with hes'
      have hsort' : List.Pairwise keyLe (entryKeys es') :=
        leafInsert_sorted es key position hsort
      have hbd' : ∀ e ∈ es', inBounds lo hi e.1 := by
        intro e he
        rcases leafInsert_mem es key position e he with h | h
        · exact hbd e h
        · rw [h]
          exact hkey
      have hlen' : es'.length = es.length + 1 := leafInsert_length es key position
      by_cases hfull : order - 1 ≤ es'.length
      · have heq : insert_into_node (.leaf es) key position order
            = ((split_leaf_node es').1, some (split_leaf_node es').2) := by
          rw [insert_into_node.eq_def]
          simp only []
          rw [← hes', if_pos hfull]
        have hmidlt : es'.length / 2 < es'.length := Nat.div_lt_self (by omega) (by omega)
        have hL : Bnd lo (some ((es'.getD (es'.length / 2) dfltLeafEntry).1))
            (.leaf (es'.take (es'.length / 2))) := by
          refine Bnd.leaf ?_ ?_
          · have hkt : entryKeys (es'.take (es'.length / 2))
                = (entryKeys es').take (es'.length / 2) := by
              simp [entryKeys, List.map_take]
            rw [hkt]
            exact hsort'.sublist (List.take_sublist _ _)
          · intro e he
            obtain ⟨j, hj1, hj2, hj3⟩ := mem_take_idx es' (es'.length / 2) dfltLeafEntry he
            have hmem : e ∈ es' := by
              rw [← hj3, List.getD_eq_getElem es' dfltLeafEntry hj2]
              exact List.getElem_mem _
            refine ⟨fun l hl => (hbd' e hmem).1 l hl, ?_⟩
            intro h' hh'
            cases hh'
            rw [← hj3]
            exact leaf_getD_mono es' hsort' j (es'.length / 2) (by omega) hmidlt
        have hSk : inBounds lo hi ((es'.getD (es'.length / 2) dfltLeafEntry).1) := by
          have hmem : es'.getD (es'.length / 2) dfltLeafEntry ∈ es' := by
            rw [List.getD_eq_getElem es' dfltLeafEntry hmidlt]
            exact List.getElem_mem _
          exact hbd' _ hmem
        have hR : Bnd (some ((es'.getD (es'.length / 2) dfltLeafEntry).1)) hi
            (.leaf (es'.drop (es'.length / 2))) := by
          refine Bnd.leaf ?_ ?_
          · have hkt : entryKeys (es'.drop (es'.length / 2))
                = (entryKeys es').drop (es'.length / 2) := by
              simp [entryKeys, List.map_drop]
            rw [hkt]
            exact hsort'.sublist (List.drop_sublist _ _)
          · intro e he
            obtain ⟨j, hj1, hj2, hj3⟩ := mem_drop_idx es' (es'.length / 2) dfltLeafEntry he
            have hmem : e ∈ es' := by
              rw [← hj3, List.getD_eq_getElem es' dfltLeafEntry hj2]
              exact List.getElem_mem _
            refine ⟨?_, fun h' hh' => (hbd' e hmem).2 h' hh'⟩
            intro l hl
            cases hl
            rw [← hj3]
            exact leaf_getD_mono es' hsort' (es'.length / 2) j hj1 hj2
        constructor
        · intro t' ht'
          rw [heq] at ht'
          injection ht' with h1 h2
          exact Option.noConfusion h2
        · intro t' sk nn ht'
          rw [heq] at ht'
          injection ht' with h1 h2
          injection h2 with h2
          have hs1 : (split_leaf_node es').1 = .leaf (es'.take (es'.length / 2)) := rfl
          have hs2 : (split_leaf_node es').2
              = ((es'.getD (es'.length / 2) dfltLeafEntry).1,
                .leaf (es'.drop (es'.length / 2))) := rfl
          rw [hs1] at h1
          rw [hs2] at h2
          injection h2 with hsk hnn
          rw [← h1, ← hsk, ← hnn]
          exact ⟨hL, hSk, hR⟩
      · have heq : insert_into_node (.leaf es) key position order = (.leaf es', none) := by
          rw [insert_into_node.eq_def]
          simp only []
          rw [← hes', if_neg hfull]
        constructor
        · intro t' ht'
          rw [heq] at ht'
          injection ht' with h1 h2
          rw [← h1]
          exact Bnd.leaf hsort' hbd'
        · intro t' sk nn ht'
          rw [heq] at ht'
          injection ht' with h1 h2
          exact Option.noConfusion h2
    | internal lm es =>
      have hbc : BndChildren lo hi lm es := by
        cases hb with | internal h => exact h
      have hchildsize : sizeOf (chooseChild lm es key) ≤ n := by
        have h1 := chooseChild_sizeOf lm es key
        have h2 : sizeOf (BTreeNode.internal lm es) = 1 + sizeOf lm + sizeOf es := by
          simp
        omega
      rcases hcins : insert_into_node (chooseChild lm es key) key position order with ⟨c', sp⟩
      have hrec' : ∀ lo' hi', Bnd lo' hi' (chooseChild lm es key) → inBounds lo' hi' key →
          (sp = none → Bnd lo' hi' c') ∧
          (∀ sk nn, sp = some (sk, nn) →
            Bnd lo' (some sk) c' ∧ inBounds lo' hi' sk ∧ Bnd (some sk) hi' nn) := by
        intro lo' hi' hbnd hkey'
        obtain ⟨ha, hbb⟩ := ih (chooseChild lm es key) hchildsize key position order lo' hi'
          hbnd hkey'
        constructor
        · intro hsp
          exact ha c' (by rw [hcins, hsp])
        · intro sk nn hsp
          exact hbb c' sk nn (by rw [hcins, hsp])
      obtain ⟨hdn, hds⟩ := descend_update key es lm lo hi c' sp hbc hkey hrec'
      cases sp with
      | none =>
        have heq : insert_into_node (.internal lm es) key position order
            = (.internal (if chooseChildIdx es key = 0 then c' else lm)
                (if chooseChildIdx es key = 0 then es
                  else setChildAt es (chooseChildIdx es key - 1) c'), none) := by
          rw [insert_into_node.eq_def]
          simp only []
          rw [hcins]
        constructor
        · intro t' ht'
          rw [heq] at ht'
          injection ht' with h1 h2
          rw [← h1]
          exact Bnd.internal (hdn rfl)
        · intro t' sk nn ht'
          rw [heq] at ht'
          injection ht' with h1 h2
          exact Option.noConfusion h2
      | some sknn =>
        obtain ⟨sk0, nn0⟩ := sknn
        have hbc2 : BndChildren lo hi (if chooseChildIdx es key = 0 then c' else lm)
            (listInsertAt (if chooseChildIdx es key = 0 then es
              else setChildAt es (chooseChildIdx es key - 1) c')
              (chooseChildIdx es key) (sk0, nn0)) := hds sk0 nn0 rfl
        by_cases hfull : order - 1 ≤ (listInsertAt (if chooseChildIdx es key = 0 then es
            else setChildAt es (chooseChildIdx es key - 1) c')
            (chooseChildIdx es key) (sk0, nn0)).length
        · have heq : insert_into_node (.internal lm es) key position order
              = ((split_internal_node (if chooseChildIdx es key = 0 then c' else lm)
                  (listInsertAt (if chooseChildIdx es key = 0 then es
                    else setChildAt es (chooseChildIdx es key - 1) c')
                    (chooseChildIdx es key) (sk0, nn0))).1,
                some (split_internal_node (if chooseChildIdx es key = 0 then c' else lm)
                  (listInsertAt (if chooseChildIdx es key = 0 then es
                    else setChildAt es (chooseChildIdx es key - 1) c')
                    (chooseChildIdx es key) (sk0, nn0))).2) := by
            rw [insert_into_node.eq_def]
            simp only []
            rw [hcins]
            simp only []
            rw [if_pos hfull]
          have hlen2 : 0 < (listInsertAt (if chooseChildIdx es key = 0 then es
              else setChildAt es (chooseChildIdx es key - 1) c')
              (chooseChildIdx es key) (sk0, nn0)).length := by
            rw [listInsertAt_length]
            omega
          obtain ⟨sa, sb, sc⟩ := BndChildren_split _ _ lo hi
            ((listInsertAt (if chooseChildIdx es key = 0 then es
              else setChildAt es (chooseChildIdx es key - 1) c')
              (chooseChildIdx es key) (sk0, nn0)).length / 2) hbc2
            (Nat.div_lt_self hlen2 (by omega))
          constructor
          · intro t' ht'
            rw [heq] at ht'
            injection ht' with h1 h2
            exact Option.noConfusion h2
          · intro t' sk nn ht'
            rw [heq] at ht'
            injection ht' with h1 h2
            injection h2 with h2
            rw [show (split_internal_node (if chooseChildIdx es key = 0 then c' else lm)
                  (listInsertAt (if chooseChildIdx es key = 0 then es
                    else setChildAt es (chooseChildIdx es key - 1) c')
                    (chooseChildIdx es key) (sk0, nn0))).1
                = BTreeNode.internal (if chooseChildIdx es key = 0 then c' else lm)
                    ((listInsertAt (if chooseChildIdx es key = 0 then es
                      else setChildAt es (chooseChildIdx es key - 1) c')
                      (chooseChildIdx es key) (sk0, nn0)).take
                      ((listInsertAt (if chooseChildIdx es key = 0 then es
                        else setChildAt es (chooseChildIdx es key - 1) c')
                        (chooseChildIdx es key) (sk0, nn0)).length / 2)) from rfl] at h1
            rw [show (split_internal_node (if chooseChildIdx es key = 0 then c' else lm)
                  (listInsertAt (if chooseChildIdx es key = 0 then es
                    else setChildAt es (chooseChildIdx es key - 1) c')
                    (chooseChildIdx es key) (sk0, nn0))).2
                = (((listInsertAt (if chooseChildIdx es key = 0 then es
                      else setChildAt es (chooseChildIdx es key - 1) c')
                      (chooseChildIdx es key) (sk0, nn0)).getD
                      ((listInsertAt (if chooseChildIdx es key = 0 then es
                        else setChildAt es (chooseChildIdx es key - 1) c')
                        (chooseChildIdx es key) (sk0, nn0)).length / 2)
                      dfltInternalEntry).1,
                    BTreeNode.internal
                      (((listInsertAt (if chooseChildIdx es key = 0 then es
                        else setChildAt es (chooseChildIdx es key - 1) c')
                        (chooseChildIdx es key) (sk0, nn0)).getD
                        ((listInsertAt (if chooseChildIdx es key = 0 then es
                          else setChildAt es (chooseChildIdx es key - 1) c')
                          (chooseChildIdx es key) (sk0, nn0)).length / 2)
                        dfltInternalEntry).2)
                      ((listInsertAt (if chooseChildIdx es key = 0 then es
                        else setChildAt es (chooseChildIdx es key - 1) c')
                        (chooseChildIdx es key) (sk0, nn0)).drop
                        ((listInsertAt (if chooseChildIdx es key = 0 then es
                          else setChildAt es (chooseChildIdx es key - 1) c')
                          (chooseChildIdx es key) (sk0, nn0)).length / 2 + 1)))
                from rfl] at h2
            injection h2 with hsk hnn
            rw [← h1, ← hsk, ← hnn]
            exact ⟨Bnd.internal sa, sb, Bnd.internal sc⟩
        · have heq : insert_into_node (.internal lm es) key position order
              = (.internal (if chooseChildIdx es key = 0 then c' else lm)
                  (listInsertAt (if chooseChildIdx es key = 0 then es
                    else setChildAt es (chooseChildIdx es key - 1) c')
                    (chooseChildIdx es key) (sk0, nn0)), none) := by
            rw [insert_into_node.eq_def]
            simp only []
            rw [hcins]
            simp only []
            rw [if_neg hfull]
          constructor
          · intro t' ht'
            rw [heq] at ht'
            injection ht' with h1 h2
            rw [← h1]
            exact Bnd.internal hbc2
          · intro t' sk nn ht'
            rw [heq] at ht'
            injection ht' with h1 h2
            exact Option.noConfusion h2

theorem btreeInsert_Bnd (root : Option BTreeNode) (key : List Nat)
    (position : TableRecordPosition) (order : Nat)
    (h : ∀ t, root = some t → Bnd none none t) :
    Bnd none none (btreeInsert root key position order) := by
  cases root with
  | none =>
    refine Bnd.leaf ?_ ?_
    · simp [entryKeys]
    · intro e he
      simp only [List.mem_singleton] at he
      subst he
      exact ⟨fun l hl => Option.noConfusion hl, fun h' hh' => Option.noConfusion hh'⟩
  | some r =>
    have hr := h r rfl
    have hkey : inBounds none none key :=
      ⟨fun l hl => Option.noConfusion hl, fun h' hh' => Option.noConfusion hh'⟩
    obtain ⟨ha, hbb⟩ := insert_into_node_Bnd (sizeOf r) r (le_refl _) key position order
      none none hr hkey
    rcases hins : insert_into_node r key position order with ⟨r', sp⟩
    cases sp with
    | none =>
      have hstep : btreeInsert (some r) key position order = r' := by
        simp only [btreeInsert, hins]
      rw [hstep]
      exact ha r' hins
    | some sknn =>
      obtain ⟨sk, nn⟩ := sknn
      have hstep : btreeInsert (some r) key position order = .internal r' [(sk, nn)] := by
        simp only [btreeInsert, hins]
      rw [hstep]
      obtain ⟨x, y, z⟩ := hbb r' sk nn hins
      exact Bnd.internal (.cons x y (.nil z))

theorem btreeInsertMany_Bnd (order : Nat) :
    ∀ (ops : List (List Nat × TableRecordPosition)) (root : Option BTreeNode),
      (∀ t, root = some t → Bnd none none t) →
      ∀ t, btreeInsertMany root ops order = some t → Bnd none none t := by
  intro ops
  induction ops with
  | nil =>
    intro root h t ht
    exact h t ht
  | cons op rest ih =>
    intro root h t ht
    refine ih (some (btreeInsert root op.1 op.2 order)) ?_ t ht
    intro t' ht'
    injection ht' with hh
    rw [← hh]
    exact btreeInsert_Bnd root op.1 op.2 order h

/-- The in-order traversal of a range-invariant subtree is key-sorted
and stays within the range. -/
theorem BndChildren_inorder_aux (m : Nat)
    (hrec : ∀ t, sizeOf t ≤ m → ∀ lo hi, Bnd lo hi t →
      List.Pairwise keyLe (entryKeys (inorder t)) ∧ ∀ e ∈ inorder t, inBounds lo hi e.1) :
    ∀ (es : List (List Nat × BTreeNode)) (lm : BTreeNode) (lo hi : Option (List Nat)),
      sizeOf lm + sizeOf es ≤ m + 1 → BndChildren lo hi lm es →
      List.Pairwise keyLe (entryKeys (inorder lm ++ inorderEntries es)) ∧
      ∀ e ∈ inorder lm ++ inorderEntries es, inBounds lo hi e.1 := by
  intro es
  induction es with
  | nil =>
    intro lm lo hi hsize h
    have hlm : Bnd lo hi lm := by cases h with | nil h0 => exact h0
    have hsl : sizeOf lm ≤ m := by
      simp at hsize
      omega
    obtain ⟨ha, hb⟩ := hrec lm hsl lo hi hlm
    have hie : inorderEntries ([] : List (List Nat × BTreeNode)) = [] := by
      simp [inorderEntries]
    rw [hie, List.append_nil]
    exact ⟨ha, hb⟩
  | cons e rest ih =>
    obtain ⟨sep, c⟩ := e
    intro lm lo hi hsize h
    cases h with
    | cons hlm hsep hrest =>
      have hslm : sizeOf lm ≤ m := by
        simp at hsize
        omega
      have hsc : sizeOf c + sizeOf rest ≤ m + 1 := by
        simp at hsize
        omega
      obtain ⟨ha, hb⟩ := hrec lm hslm lo (some sep) hlm
      obtain ⟨hc, hd⟩ := ih c (some sep) hi hsc hrest
      have hie : inorderEntries ((sep, c) :: rest) = inorder c ++ inorderEntries rest := by
        simp [inorderEntries]
      rw [hie]
      constructor
      · have hek : entryKeys (inorder lm ++ (inorder c ++ inorderEntries rest))
            = entryKeys (inorder lm) ++ entryKeys (inorder c ++ inorderEntries rest) := by
          simp [entryKeys]
        rw [hek, List.pairwise_append]
        refine ⟨ha, hc, ?_⟩
        intro a haa b hbb
        obtain ⟨ea, heamem, hea⟩ := List.mem_map.mp haa
        obtain ⟨eb, hebmem, heb⟩ := List.mem_map.mp hbb
        rw [← hea, ← heb]
        exact keyLe_trans ((hb ea heamem).2 sep rfl) ((hd eb hebmem).1 sep rfl)
      · intro e he
        rcases List.mem_append.mp he with h1 | h1
        · refine ⟨(hb e h1).1, ?_⟩
          intro h' hh'
          exact keyLe_trans ((hb e h1).2 sep rfl) (hsep.2 h' hh')
        · refine ⟨?_, (hd e h1).2⟩
          intro l hl
          exact keyLe_trans (hsep.1 l hl) ((hd e h1).1 sep rfl)

theorem Bnd_inorder : ∀ (n : Nat) (t : BTreeNode), sizeOf t ≤ n →
    ∀ lo hi, Bnd lo hi t →
      List.Pairwise keyLe (entryKeys (inorder t)) ∧ ∀ e ∈ inorder t, inBounds lo hi e.1 := by
  intro n
  induction n with
  | zero =>
    intro t h
    exfalso
    cases t <;> simp at h
  | succ n ih =>
    intro t hsize lo hi hb
    cases t with
    | leaf es =>
      have h1 : inorder (.leaf es) = es := by simp [inorder]
      rw [h1]
      cases hb with | leaf hs hbd => exact ⟨hs, hbd⟩
    | internal lm es =>
      have hbc : BndChildren lo hi lm es := by cases hb with | internal h => exact h
      have h1 : inorder (.internal lm es) = inorder lm ++ inorderEntries es := by
        simp [inorder]
      rw [h1]
      refine BndChildren_inorder_aux n ih es lm lo hi ?_ hbc
      have h2 : sizeOf (BTreeNode.internal lm es) = 1 + sizeOf lm + sizeOf es := by simp
      omega

/-- Part (2) of the amended claim: after any insert sequence, with any
order and hence across arbitrary leaf and internal splits, the
in-order traversal of the index is key-sorted. -/
theorem btreeInsertMany_inorder_sorted (ops : List (List Nat × TableRecordPosition))
    (order : Nat) :
    KeysSorted (entryKeys (inorderOpt (btreeInsertMany none ops order))) := by
  cases hres : btreeInsertMany none ops order with
  | none => simp [inorderOpt, KeysSorted, entryKeys]
  | some t =>
    have hbnd : Bnd none none t :=
      btreeInsertMany_Bnd order ops none (fun t' ht' => Option.noConfusion ht') t hres
    have hs := (Bnd_inorder (sizeOf t) t (le_refl _) none none hbnd).1
    simpa [inorderOpt, KeysSorted] using hs

/-! ## Claim C8 -/

theorem binarySearchLoop_one (f : Nat → Ordering) (base : Nat) :
    binarySearchLoop f base 1 = base := by
  rw [binarySearchLoop.eq_def]
  norm_num

theorem binarySearchLoop_two (f : Nat → Ordering) (base : Nat) :
    binarySearchLoop f base 2 = if f (base + 1) = .gt then base else base + 1 := by
  rw [binarySearchLoop.eq_def]
  norm_num [binarySearchLoop_one]

/-- Three inserts of the same key. -/
def c8CtrOps : List (List Nat × TableRecordPosition) :=
  [([107], ⟨0, 0⟩), ([107], ⟨0, 1⟩), ([107], ⟨0, 2⟩)]

/-- **C8, counterexample.**  Insert the key `"k"` (byte `107`) three
times — no split occurs (3 ≤ 62 inserts, order 64) — with positions
`p1`, `p2`, `p3`.  The leaf evolves `[p1]`, `[p2, p1]`,
`[p2, p3, p1]`: the binary search lands on the *last* equal entry of a
duplicate run, so the third insert goes *behind* the second, and the
first-match scan of `find_in_node` returns `p2`, not the latest
position `p3`.  This refutes the claim's parenthetical "including
when k was inserted more than once". -/
theorem C8_counterexample :
    countKey c8CtrOps [107] = 3 ∧
    c8CtrOps.length ≤ 62 ∧
    latestPos c8CtrOps [107] = some ⟨0, 2⟩ ∧
    btreeFind (btreeInsertMany none c8CtrOps 64) [107] = some ⟨0, 1⟩ := by
  refine ⟨by decide, by decide, by decide, ?_⟩
  have s2ins : insert_into_node (.leaf [([107], ⟨0, 0⟩)]) [107] ⟨0, 1⟩ 64
      = (.leaf [([107], ⟨0, 1⟩), ([107], ⟨0, 0⟩)], none) := by
    rw [insert_into_node.eq_def]
    norm_num [leafInsert, binarySearchPos, binarySearchLoop_one, binarySearchLoop_two]
    rfl
  have s3ins : insert_into_node (.leaf [([107], ⟨0, 1⟩), ([107], ⟨0, 0⟩)]) [107] ⟨0, 2⟩ 64
      = (.leaf [([107], ⟨0, 1⟩), ([107], ⟨0, 2⟩), ([107], ⟨0, 0⟩)], none) := by
    rw [insert_into_node.eq_def]
    norm_num [leafInsert, binarySearchPos, binarySearchLoop_one, binarySearchLoop_two]
    rfl
  have st2 : btreeInsert (some (.leaf [([107], ⟨0, 0⟩)])) [107] ⟨0, 1⟩ 64
      = .leaf [([107], ⟨0, 1⟩), ([107], ⟨0, 0⟩)] := by
    simp only [btreeInsert, s2ins]
  have st3 : btreeInsert (some (.leaf [([107], ⟨0, 1⟩), ([107], ⟨0, 0⟩)])) [107] ⟨0, 2⟩ 64
      = .leaf [([107], ⟨0, 1⟩), ([107], ⟨0, 2⟩), ([107], ⟨0, 0⟩)] := by
    simp only [btreeInsert, s3ins]
  have hm : btreeInsertMany none c8CtrOps 64
      = some (.leaf [([107], ⟨0, 1⟩), ([107], ⟨0, 2⟩), ([107], ⟨0, 0⟩)]) := by
    simp only [c8CtrOps, btreeInsertMany, List.foldl_cons, List.foldl_nil]
    rw [show btreeInsert none [107] (⟨0, 0⟩ : TableRecordPosition) 64
      = .leaf [([107], ⟨0, 0⟩)] from rfl]
    rw [st2, st3]
  have hfind : btreeFind
      (some (.leaf [([107], ⟨0, 1⟩), ([107], ⟨0, 2⟩), ([107], ⟨0, 0⟩)])) [107]
      = some ⟨0, 1⟩ := by
    simp only [btreeFind]
    rw [find_in_node.eq_def]
    rfl
  rw [hm, hfind]

/-- **C8** (amended).  For insert sequences from an empty index in
which no node split occurs (guaranteed here by at most 62 inserts at
the metadata order 64, a leaf splitting only on reaching 63 entries),
`find(k)` returns the position supplied by the latest `insert(k, _)`
**provided `k` was inserted at most twice** — with three or more
inserts of `k` the binary-search insertion point falls behind an
older duplicate and `find` returns a stale position
(`C8_counterexample`).  Across splits the tree order *is* preserved:
after any insert sequence, at any order, the in-order traversal of
the index yields the keys in (weakly) sorted byte order. -/
theorem C8_btree_insert_find (ops ops2 : List (List Nat × TableRecordPosition))
    (key : List Nat) (order : Nat)
    (hnosplit : ops.length ≤ 62) (hdup : countKey ops key ≤ 2) :
    btreeFind (btreeInsertMany none ops 64) key = latestPos ops key ∧
    KeysSorted (entryKeys (inorderOpt (btreeInsertMany none ops2 order))) :=
  ⟨btreeFind_latest ops key hnosplit hdup, btreeInsertMany_inorder_sorted ops2 order⟩

/-- Two inserts of key `107` around one insert of key `104`. -/
def c8WitnessOps : List (List Nat × TableRecordPosition) :=
  [([104], ⟨0, 5⟩), ([107], ⟨0, 6⟩), ([107], ⟨0, 7⟩)]

/-- Witness for `C8_btree_insert_find` at a concrete insert
sequence. -/
theorem C8_btree_insert_find_witness :
    (c8WitnessOps.length ≤ 62 ∧ countKey c8WitnessOps [107] ≤ 2) ∧
    (btreeFind (btreeInsertMany none c8WitnessOps 64) [107] = latestPos c8WitnessOps [107] ∧
      KeysSorted (entryKeys (inorderOpt (btreeInsertMany none c8WitnessOps 64)))) :=
  ⟨⟨by decide, by decide⟩,
    C8_btree_insert_find c8WitnessOps c8WitnessOps [107] 64 (by decide) (by decide)⟩
